import Mathlib

/-!
TLB replacement-policy simulator (`src/TLB.cpp`).

A shallow embedding of the class `TLB` of `src/TLB.cpp` and of the replay loop of
`simulateTLB`, followed by theorems about the resident sequence and the counters.

Modelling conventions.

* `deque<string> entries` is a `List α`, front of the deque = head of the list; the page
  type `α` is any type with decidable equality (the code uses `std::string` and only
  compares pages with `==`).
* `mt19937 rng` is a generator state of an arbitrary type `G` together with a step function
  `gen : G → Nat × G` giving the next raw output and the next generator state.  The seed
  taken from `random_device` in the constructor is an argument of `TLB.new`.
* `size_t` arithmetic is arithmetic modulo `2 ^ 64`.
* `int hits, misses` are integers of `[-2 ^ 31, 2 ^ 31)`: `hits++`, `misses++` and
  `hits + misses` are computed modulo `2 ^ 32` (`toInt32`), as the compiled program does
  when the exact result leaves the range of `int`.
* Operations whose behaviour is undefined in C++ (`pop_front` on an empty deque, `erase`
  at a position that is not an element) make `access` return `none`.
* The field `lru_map` is never read or written by the code and is left out.
* `double` values are the rational numbers they stand for: a quotient or a product is the
  exact result rounded to binary64 (`roundBinary64`), a division by zero is undefined
  (`none`).
* `main` takes the argument count, the value of `stoi(argv[2])` and the lines of the trace
  file as inputs; what `simulateTLB` writes to `cout` is a list of lines (name, percentage).
-/

namespace TLBSim

/-- Replacement policies: `enum ReplacementPolicy`. -/
inductive ReplacementPolicy where
  | FIFO
  | LRU
  | RANDOM
  deriving DecidableEq

/-- Width of `size_t` in bits. -/
def SIZE_WIDTH : Nat := 64

/-- The value of type `int` (32 bits, two's complement) that an exact integer result is
reduced to: the representative of `i` modulo `2 ^ 32` in `[-2 ^ 31, 2 ^ 31)`.  It is `i`
itself when `i` is in that range. -/
def toInt32 (i : Int) : Int :=
  (i + 2 ^ 31) % 2 ^ 32 - 2 ^ 31

/-- The state of a `TLB` object: the data members of the class. -/
structure TLB (G : Type) (α : Type) where
  /-- Capacity, `size_t size`. -/
  size : Nat
  /-- Replacement policy. -/
  policy : ReplacementPolicy
  /-- Resident pages, front first: `deque<string> entries`. -/
  entries : List α
  /-- State of the generator `mt19937 rng`. -/
  rng : G
  /-- Number of hits, `int hits`. -/
  hits : Int
  /-- Number of misses, `int misses`. -/
  misses : Int
  deriving DecidableEq

/-- The algorithm `std::remove(first, last, value)` on a whole container: the elements
different from `value` are compacted to the front in their original order, the positions
from the returned index on keep what they held (the standard leaves them unspecified; a
copying implementation leaves them as they were).  Returns the container after the call and
the index of the new logical end. -/
def stdRemove {α : Type} [DecidableEq α] (xs : List α) (value : α) : List α × Nat :=
  let kept := xs.filter (fun e => decide (e ≠ value))
  (kept ++ xs.drop kept.length, kept.length)

/-- The unsigned subtraction `entries.size() - 1` on `size_t`. -/
def sizeMinusOne (n : Nat) : Nat :=
  (n + 2 ^ SIZE_WIDTH - 1) % 2 ^ SIZE_WIDTH

/-- The draw `uniform_int_distribution<size_t> dist(lo, hi); dist(rng)`: a value of
`[lo, hi]` obtained from the raw output `raw` of the generator. -/
def uniformInt (lo hi raw : Nat) : Nat :=
  lo + raw % (hi - lo + 1)

namespace TLB

variable {G α : Type}

/-- The constructor `TLB(size, policy)`: empty deque, both counters zero; `seed` is the
value `random_device{}()` the generator is seeded with. -/
def new (size : Nat) (policy : ReplacementPolicy) (seed : G) : TLB G α :=
  { size := size, policy := policy, entries := [], rng := seed, hits := 0, misses := 0 }

/-- The method `access(page)`.  `none` stands for undefined behaviour of the C++ code. -/
def access [DecidableEq α] (gen : G → Nat × G) (t : TLB G α) (page : α) : Option (TLB G α) :=
  if page ∈ t.entries then
    -- hits++
    let t1 := { t with hits := toInt32 (t.hits + 1) }
    if t.policy = ReplacementPolicy.LRU then
      -- entries.erase(remove(entries.begin(), entries.end(), page)); entries.push_back(page)
      let r := stdRemove t.entries page
      if r.2 < r.1.length then
        some { t1 with entries := r.1.eraseIdx r.2 ++ [page] }
      else none
    else some t1
  else
    -- misses++
    let t1 := { t with misses := toInt32 (t.misses + 1) }
    if t.entries.length < t.size then
      some { t1 with entries := t.entries ++ [page] }
    else
      match t.policy with
      | ReplacementPolicy.FIFO =>
        -- entries.pop_front(); entries.push_back(page)
        match t.entries with
        | [] => none
        | _ :: rest => some { t1 with entries := rest ++ [page] }
      | ReplacementPolicy.LRU =>
        match t.entries with
        | [] => none
        | _ :: rest => some { t1 with entries := rest ++ [page] }
      | ReplacementPolicy.RANDOM =>
        -- dist(0, entries.size() - 1); victim = dist(rng); entries.erase(begin() + victim)
        let d := gen t.rng
        let victim := uniformInt 0 (sizeMinusOne t.entries.length) d.1
        if victim < t.entries.length then
          some { t1 with entries := t.entries.eraseIdx victim ++ [page], rng := d.2 }
        else none

/-- The method `reset()`: clears the deque and both counters. -/
def reset (t : TLB G α) : TLB G α :=
  { t with entries := [], hits := 0, misses := 0 }

/-- The replay loop of `simulateTLB`: `for (page : referenceString) tlb.access(page)`. -/
def replay [DecidableEq α] (gen : G → Nat × G) (t : TLB G α) : List α → Option (TLB G α)
  | [] => some t
  | page :: rest => (access gen t page).bind (fun t1 => replay gen t1 rest)

/-- Well-formed states: no page is resident twice and there are at most `size` residents. -/
def WF (t : TLB G α) : Prop :=
  t.entries.Nodup ∧ t.entries.length ≤ t.size

/-- Both counters are values of type `int`. -/
def CountersInt (t : TLB G α) : Prop :=
  -2 ^ 31 ≤ t.hits ∧ t.hits < 2 ^ 31 ∧ -2 ^ 31 ≤ t.misses ∧ t.misses < 2 ^ 31

end TLB

/-- The distinct pages of a trace ordered by their last occurrence, least recently used
first: every page is kept at its last occurrence only. -/
def lastUseOrder {α : Type} [DecidableEq α] : List α → List α
  | [] => []
  | p :: rest => if p ∈ rest then lastUseOrder rest else p :: lastUseOrder rest

/-- Position (from 0) of the last occurrence of `q` in a trace (0 when `q` does not
occur). -/
def lastOccurrence {α : Type} [DecidableEq α] : List α → α → Nat
  | [], _ => 0
  | _ :: rest, q => if q ∈ rest then lastOccurrence rest q + 1 else 0

/-- The last `min k n` entries of a list of length `n`, in their order. -/
def lastEntries {α : Type} (k : Nat) (l : List α) : List α :=
  l.drop (l.length - min k l.length)

/-- Reference definition of the LRU resident sequence for capacity `k`: the last
`min k d` entries of the list of the `d` distinct pages of the trace ordered by their last
occurrence. -/
def lruReference {α : Type} [DecidableEq α] (k : Nat) (trace : List α) : List α :=
  lastEntries k (lastUseOrder trace)

/-- The pages whose `access` took the miss branch (`misses++`) during a replay from state
`t`, in the order they missed. -/
def missLog {G α : Type} [DecidableEq α] (gen : G → Nat × G) (t : TLB G α) : List α → List α
  | [] => []
  | page :: rest =>
    (if page ∈ t.entries then [] else [page]) ++
      (match TLB.access gen t page with
        | none => []
        | some t1 => missLog gen t1 rest)

/-- Rounding of a rational to the nearest integer, ties to the even integer. -/
def roundHalfEven (x : ℚ) : Int :=
  if x - ⌊x⌋ < 1 / 2 then ⌊x⌋
  else if 1 / 2 < x - ⌊x⌋ then ⌊x⌋ + 1
  else if ⌊x⌋ % 2 = 0 then ⌊x⌋ else ⌊x⌋ + 1

/-- Rounding of an exact result to IEEE 754 binary64, round to nearest, ties to even: the
exponent is that of the value, not below the subnormal exponent -1022, the significand has
53 bits.  `none` when the rounded value is beyond the binary64 range (an infinity on IEEE 754
implementations).  The sign of a zero result is not modelled. -/
def roundBinary64 (q : ℚ) : Option ℚ :=
  if q = 0 then some 0
  else
    let e := max (Int.log 2 |q|) (-1022)
    let r : ℚ := (roundHalfEven (q / 2 ^ (e - 52)) : ℚ) * 2 ^ (e - 52)
    if (2 : ℚ) ^ (1024 : Int) ≤ |r| then none else some r

/-- The C++ operator `/` on two `double` operands: the exact quotient rounded to binary64.
A zero divisor makes the operation undefined (`none`); implementations following IEEE 754
yield NaN or an infinity there. -/
def cppDivide (a b : ℚ) : Option ℚ :=
  if b = 0 then none else roundBinary64 (a / b)

/-- The C++ operator `*` on two `double` operands: the exact product rounded to
binary64. -/
def cppMultiply (a b : ℚ) : Option ℚ :=
  roundBinary64 (a * b)

/-- The method `getMissRate()`: `static_cast<double>(misses) / (hits + misses)`.  The sum
is an `int` addition; both conversions of an `int` to `double` are exact. -/
def TLB.getMissRate {G α : Type} (t : TLB G α) : Option ℚ :=
  cppDivide (t.misses : ℚ) ((toInt32 (t.hits + t.misses) : Int) : ℚ)

/-- The vector `policies` of `simulateTLB`. -/
def policies : List ReplacementPolicy :=
  [ReplacementPolicy.FIFO, ReplacementPolicy.LRU, ReplacementPolicy.RANDOM]

/-- The vector `policyNames` of `simulateTLB`. -/
def policyNames : List String :=
  ["FIFO", "LRU", "RANDOM"]

/-- The outer loop of `simulateTLB` over the policies and their names: a fresh engine per
policy (seeded with `seeds policy`), the replay of the reference string, and one output line
made of the policy name and `getMissRate() * 100` (the `int` 100 converted to `double`).
`none` when a step is undefined. -/
def simulateLoop {G α : Type} [DecidableEq α] (gen : G → Nat × G)
    (seeds : ReplacementPolicy → G) (referenceString : List α) (tlbSize : Nat) :
    List (ReplacementPolicy × String) → Option (List (String × ℚ))
  | [] => some []
  | (policy, name) :: rest =>
    (TLB.replay gen (TLB.new tlbSize policy (seeds policy)) referenceString).bind fun tlb =>
      tlb.getMissRate.bind fun rate =>
        (cppMultiply rate 100).bind fun percent =>
          (simulateLoop gen seeds referenceString tlbSize rest).map fun lines =>
            (name, percent) :: lines

/-- The function `simulateTLB(referenceString, tlbSize)`; the result is the list of lines
written to `cout`. -/
def simulateTLB {G α : Type} [DecidableEq α] (gen : G → Nat × G)
    (seeds : ReplacementPolicy → G) (referenceString : List α) (tlbSize : Nat) :
    Option (List (String × ℚ)) :=
  simulateLoop gen seeds referenceString tlbSize (policies.zip policyNames)

/-- What a run of `main` does. -/
inductive MainOutcome where
  /-- The usage message is printed and `main` returns 1. -/
  | usage
  /-- The call `stoi(argv[2])` throws and the exception leaves `main`. -/
  | stoiThrows
  /-- The run executes an operation with undefined behaviour. -/
  | undefinedBehaviour
  /-- The lines of `simulateTLB` are printed and `main` returns 0. -/
  | report (lines : List (String × ℚ))
  deriving DecidableEq

/-- The function `main`.  `argc` is the argument count, `stoiResult` the value of
`stoi(argv[2])` (`none` when it throws) and `fileLines` the lines that
`loadReferenceStringFromFile(argv[1])` returns (no line for a file that cannot be opened).
The conversion of the `int` to `size_t tlbSize` is reduction modulo `2 ^ 64`. -/
def main {G α : Type} [DecidableEq α] (gen : G → Nat × G) (seeds : ReplacementPolicy → G)
    (argc : Nat) (stoiResult : Option Int) (fileLines : List α) : MainOutcome :=
  if argc ≠ 3 then MainOutcome.usage
  else
    match stoiResult with
    | none => MainOutcome.stoiThrows
    | some n =>
      let tlbSize := (n % (2 ^ SIZE_WIDTH : Int)).toNat
      match simulateTLB gen seeds fileLines tlbSize with
      | none => MainOutcome.undefinedBehaviour
      | some lines => MainOutcome.report lines

/-- The trace `a, b, a, b, ...` made of `n` times the pair `a, b`. -/
def alternating {α : Type} (a b : α) : Nat → List α
  | 0 => []
  | n + 1 => alternating a b n ++ [a, b]

/-- A generator for examples: the state is the list of raw outputs still to come (an
exhausted list yields `0`). -/
def listGen : List Nat → Nat × List Nat
  | [] => (0, [])
  | r :: rest => (r, rest)

/-! ## Library facts about `stdRemove` and lists -/

section Lists

variable {α : Type} [DecidableEq α]

theorem toInt32_of_range (i : Int) (h1 : -2 ^ 31 ≤ i) (h2 : i < 2 ^ 31) : toInt32 i = i := by
  unfold toInt32
  omega

theorem toInt32_natCast (n : Nat) (h : n < 2 ^ 31) : toInt32 (n : Int) = n := by
  unfold toInt32
  omega

theorem toInt32_add (a b : Int) : toInt32 (toInt32 a + b) = toInt32 (a + b) := by
  unfold toInt32
  omega

theorem toInt32_zero : toInt32 0 = 0 := by
  decide

theorem floor_le_roundHalfEven (x : ℚ) : ⌊x⌋ ≤ roundHalfEven x := by
  unfold roundHalfEven
  split_ifs <;> omega

theorem roundHalfEven_le_ceil (x : ℚ) : roundHalfEven x ≤ ⌈x⌉ := by
  have h1 : ⌊x⌋ ≤ ⌈x⌉ := Int.floor_le_ceil x
  have h2 : ¬ x - ⌊x⌋ < 1 / 2 → ⌊x⌋ + 1 ≤ ⌈x⌉ := by
    intro h
    have h3 : (⌊x⌋ : ℚ) < x := by linarith
    have h4 : (⌊x⌋ : ℚ) < (⌈x⌉ : ℚ) := lt_of_lt_of_le h3 (Int.le_ceil x)
    have h5 : ⌊x⌋ < ⌈x⌉ := by exact_mod_cast h4
    omega
  unfold roundHalfEven
  split_ifs with a b c
  · exact h1
  · exact h2 a
  · exact h1
  · exact h2 a

theorem roundHalfEven_close (x : ℚ) : |(roundHalfEven x : ℚ) - x| ≤ 1 / 2 := by
  have h1 : (⌊x⌋ : ℚ) ≤ x := Int.floor_le x
  have h2 : x < (⌊x⌋ : ℚ) + 1 := Int.lt_floor_add_one x
  rw [abs_le]
  unfold roundHalfEven
  split_ifs with a b c
  · constructor <;> linarith
  · constructor <;> push_cast <;> linarith
  · constructor <;> linarith
  · constructor <;> push_cast <;> linarith

/-- Rounding a positive value below an integer `B < 2 ^ 53`: no overflow, and the result
stays in `[0, B]`. -/
theorem roundBinary64_pos (q : ℚ) (B : Nat) (hpos : 0 < q) (hB : q ≤ B) (hB53 : B < 2 ^ 53) :
    roundBinary64 q = some ((roundHalfEven (q / 2 ^ (max (Int.log 2 q) (-1022) - 52)) : ℚ)
        * 2 ^ (max (Int.log 2 q) (-1022) - 52)) ∧
      0 ≤ (roundHalfEven (q / 2 ^ (max (Int.log 2 q) (-1022) - 52)) : ℚ)
        * 2 ^ (max (Int.log 2 q) (-1022) - 52) ∧
      (roundHalfEven (q / 2 ^ (max (Int.log 2 q) (-1022) - 52)) : ℚ)
        * 2 ^ (max (Int.log 2 q) (-1022) - 52) ≤ B := by
  have hq : q ≠ 0 := ne_of_gt hpos
  have h0 : 0 ≤ q := le_of_lt hpos
  have habs : |q| = q := abs_of_pos hpos
  have hlog : Int.log 2 q < 53 := by
    rw [← Int.lt_zpow_iff_log_lt (by norm_num) hpos]
    have : (B : ℚ) < 2 ^ 53 := by exact_mod_cast hB53
    calc q ≤ B := hB
      _ < 2 ^ 53 := this
      _ = ((2 : ℕ) : ℚ) ^ (53 : ℤ) := by norm_num
  obtain ⟨e, he⟩ : ∃ e, e = max (Int.log 2 q) (-1022) := ⟨_, rfl⟩
  rw [← he]
  have he52 : e ≤ 52 := by rw [he]; omega
  obtain ⟨j, hj⟩ : ∃ j : Nat, (j : Int) = 52 - e := ⟨(52 - e).toNat, by omega⟩
  have hulp : (0 : ℚ) < 2 ^ (e - 52) := zpow_pos (by norm_num) _
  have hinv : (2 : ℚ) ^ (e - 52) * 2 ^ j = 1 := by
    have : (2 : ℚ) ^ j = 2 ^ (52 - e) := by rw [← hj]; norm_cast
    rw [this, ← zpow_add₀ (by norm_num : (2 : ℚ) ≠ 0)]
    have : e - 52 + (52 - e) = 0 := by omega
    rw [this, zpow_zero]
  have hK : q / 2 ^ (e - 52) ≤ ((B * 2 ^ j : Nat) : ℚ) := by
    rw [div_le_iff₀ hulp]
    push_cast
    calc q ≤ B := hB
      _ = B * (2 ^ (e - 52) * 2 ^ j) := by rw [hinv, mul_one]
      _ = B * 2 ^ j * 2 ^ (e - 52) := by ring
  have hn0 : 0 ≤ q / 2 ^ (e - 52) := div_nonneg h0 (le_of_lt hulp)
  have hr1 : roundHalfEven (q / 2 ^ (e - 52)) ≤ ((B * 2 ^ j : Nat) : Int) := by
    refine le_trans (roundHalfEven_le_ceil _) ?_
    rw [Int.ceil_le]
    exact_mod_cast hK
  have hr0 : 0 ≤ roundHalfEven (q / 2 ^ (e - 52)) :=
    le_trans (Int.floor_nonneg.2 hn0) (floor_le_roundHalfEven _)
  have hle : (roundHalfEven (q / 2 ^ (e - 52)) : ℚ) * 2 ^ (e - 52) ≤ B := by
    have h1 : (roundHalfEven (q / 2 ^ (e - 52)) : ℚ) ≤ ((B * 2 ^ j : Nat) : ℚ) := by
      exact_mod_cast hr1
    calc (roundHalfEven (q / 2 ^ (e - 52)) : ℚ) * 2 ^ (e - 52)
        ≤ ((B * 2 ^ j : Nat) : ℚ) * 2 ^ (e - 52) := mul_le_mul_of_nonneg_right h1 (le_of_lt hulp)
      _ = B * (2 ^ (e - 52) * 2 ^ j) := by push_cast; ring
      _ = B := by rw [hinv, mul_one]
  have hge : 0 ≤ (roundHalfEven (q / 2 ^ (e - 52)) : ℚ) * 2 ^ (e - 52) :=
    mul_nonneg (by exact_mod_cast hr0) (le_of_lt hulp)
  refine ⟨?_, hge, hle⟩
  have hbig : ¬ (2 : ℚ) ^ (1024 : Int) ≤ |(roundHalfEven (q / 2 ^ (e - 52)) : ℚ) * 2 ^ (e - 52)| := by
    rw [abs_of_nonneg hge, not_le]
    have h53 : (B : ℚ) < 2 ^ 53 := by exact_mod_cast hB53
    calc _ ≤ (B : ℚ) := hle
      _ < 2 ^ 53 := h53
      _ ≤ 2 ^ (1024 : Int) := by norm_num
  simp only [roundBinary64, if_neg hq, habs, ← he, if_neg hbig]

/-- Rounding a value of `[0, B]`, `B` an integer below `2 ^ 53`, stays in `[0, B]`. -/
theorem roundBinary64_bounds (q : ℚ) (B : Nat) (h0 : 0 ≤ q) (hB : q ≤ B) (hB53 : B < 2 ^ 53) :
    ∃ r, roundBinary64 q = some r ∧ 0 ≤ r ∧ r ≤ B := by
  by_cases hq : q = 0
  · exact ⟨0, by simp [roundBinary64, hq], le_refl _, by exact_mod_cast Nat.zero_le B⟩
  · exact ⟨_, roundBinary64_pos q B (lt_of_le_of_ne h0 (Ne.symm hq)) hB hB53⟩

theorem roundBinary64_close (q : ℚ) (h0 : 0 < q) (h1 : q ≤ 1) :
    ∃ r, roundBinary64 q = some r ∧ |r - q| ≤ 2 ^ (-53 : Int) := by
  obtain ⟨hr, _, _⟩ := roundBinary64_pos q 1 h0 (by simpa using h1) (by norm_num)
  refine ⟨_, hr, ?_⟩
  have hlog : Int.log 2 q < 1 := by
    rw [← Int.lt_zpow_iff_log_lt (by norm_num) h0]
    calc q ≤ 1 := h1
      _ < ((2 : ℕ) : ℚ) ^ (1 : ℤ) := by norm_num
  obtain ⟨e, he⟩ : ∃ e, e = max (Int.log 2 q) (-1022) := ⟨_, rfl⟩
  rw [← he]
  have he0 : e ≤ 0 := by rw [he]; omega
  have hulp : (0 : ℚ) < 2 ^ (e - 52) := zpow_pos (by norm_num) _
  have hulp2 : (2 : ℚ) ^ (e - 52) ≤ 2 ^ (-52 : Int) :=
    zpow_le_zpow_right₀ (by norm_num) (by omega)
  have hc := roundHalfEven_close (q / 2 ^ (e - 52))
  have heq : (roundHalfEven (q / 2 ^ (e - 52)) : ℚ) * 2 ^ (e - 52) - q
      = ((roundHalfEven (q / 2 ^ (e - 52)) : ℚ) - q / 2 ^ (e - 52)) * 2 ^ (e - 52) := by
    field_simp
  rw [heq, abs_mul, abs_of_pos hulp]
  calc |(roundHalfEven (q / 2 ^ (e - 52)) : ℚ) - q / 2 ^ (e - 52)| * 2 ^ (e - 52)
      ≤ 1 / 2 * 2 ^ (-52 : Int) := mul_le_mul hc hulp2 (le_of_lt hulp) (by norm_num)
    _ = 2 ^ (-53 : Int) := by norm_num

theorem log_two_thirds : Int.log 2 ((2 : ℚ) / 3) = -1 := by
  apply le_antisymm
  · have h : Int.log 2 ((2 : ℚ) / 3) < 0 := by
      rw [← Int.lt_zpow_iff_log_lt (by norm_num) (by norm_num)]
      norm_num
    omega
  · rw [← Int.zpow_le_iff_le_log (by norm_num) (by norm_num)]
    norm_num

theorem roundBinary64_two_thirds :
    roundBinary64 (2 / 3) = some (6004799503160661 / 9007199254740992) := by
  have hfl : ⌊(2 : ℚ) / 3 / 2 ^ (-53 : Int)⌋ = 6004799503160661 := by
    rw [Int.floor_eq_iff]
    constructor <;> norm_num
  have he : max (Int.log 2 ((2 : ℚ) / 3)) (-1022) - 52 = -53 := by
    rw [log_two_thirds]; rfl
  have hr : roundHalfEven ((2 : ℚ) / 3 / 2 ^ (-53 : Int)) = 6004799503160661 := by
    unfold roundHalfEven
    rw [hfl]
    norm_num
  obtain ⟨h, _, _⟩ := roundBinary64_pos (2 / 3) 1 (by norm_num) (by norm_num) (by norm_num)
  rw [h, he, hr]
  norm_num

/-- Rounding a negative value of `[-1, -2 ^ (-1022)]`: the result is defined and negative. -/
theorem roundBinary64_neg (q : ℚ) (hneg : q < 0) (h1 : -1 ≤ q)
    (hnorm : (2 : ℚ) ^ (-1022 : Int) ≤ -q) :
    ∃ r, roundBinary64 q = some r ∧ r < 0 := by
  have hq : q ≠ 0 := ne_of_lt hneg
  have habs : |q| = -q := abs_of_neg hneg
  have hpos : 0 < -q := neg_pos.2 hneg
  have hlog : -1022 ≤ Int.log 2 (-q) := by
    rw [← Int.zpow_le_iff_le_log (by norm_num) hpos]
    simpa using hnorm
  have hlog0 : Int.log 2 (-q) < 1 := by
    rw [← Int.lt_zpow_iff_log_lt (by norm_num) hpos]
    have : -q ≤ 1 := by linarith
    calc -q ≤ 1 := this
      _ < ((2 : ℕ) : ℚ) ^ (1 : ℤ) := by norm_num
  obtain ⟨e, he⟩ : ∃ e, e = Int.log 2 (-q) := ⟨_, rfl⟩
  have hmax : max e (-1022) = e := by rw [he]; exact max_eq_left hlog
  have hulp : (0 : ℚ) < 2 ^ (e - 52) := zpow_pos (by norm_num) _
  have hle : (2 : ℚ) ^ (e - 52) ≤ -q := by
    have h2 : ((2 : ℕ) : ℚ) ^ e ≤ -q := by rw [he]; exact Int.zpow_log_le_self (by norm_num) hpos
    have h3 : (2 : ℚ) ^ (e - 52) ≤ 2 ^ e := zpow_le_zpow_right₀ (by norm_num) (by omega)
    calc (2 : ℚ) ^ (e - 52) ≤ 2 ^ e := h3
      _ ≤ -q := by simpa using h2
  have hulp1 : (2 : ℚ) ^ (e - 52) ≤ 1 := by
    calc (2 : ℚ) ^ (e - 52) ≤ 2 ^ (0 : ℤ) := zpow_le_zpow_right₀ (by norm_num) (by omega)
      _ = 1 := by norm_num
  have hn : q / 2 ^ (e - 52) ≤ ((-1 : Int) : ℚ) := by
    rw [div_le_iff₀ hulp]
    push_cast
    linarith
  have hr1 : roundHalfEven (q / 2 ^ (e - 52)) ≤ -1 :=
    le_trans (roundHalfEven_le_ceil _) (Int.ceil_le.2 hn)
  have hr1q : (roundHalfEven (q / 2 ^ (e - 52)) : ℚ) ≤ -1 := by exact_mod_cast hr1
  have hlt : (roundHalfEven (q / 2 ^ (e - 52)) : ℚ) * 2 ^ (e - 52) < 0 := by
    have : (roundHalfEven (q / 2 ^ (e - 52)) : ℚ) < 0 := by linarith
    exact mul_neg_of_neg_of_pos this hulp
  have hfl : (q / 2 ^ (e - 52)) - 1 ≤ (roundHalfEven (q / 2 ^ (e - 52)) : ℚ) := by
    have h4 : (⌊q / 2 ^ (e - 52)⌋ : ℚ) ≤ (roundHalfEven (q / 2 ^ (e - 52)) : ℚ) := by
      exact_mod_cast floor_le_roundHalfEven _
    have h5 := Int.lt_floor_add_one (q / 2 ^ (e - 52))
    linarith
  have hge : -2 ≤ (roundHalfEven (q / 2 ^ (e - 52)) : ℚ) * 2 ^ (e - 52) := by
    have h6 : (q / 2 ^ (e - 52) - 1) * 2 ^ (e - 52)
        ≤ (roundHalfEven (q / 2 ^ (e - 52)) : ℚ) * 2 ^ (e - 52) :=
      mul_le_mul_of_nonneg_right hfl (le_of_lt hulp)
    have h7 : (q / 2 ^ (e - 52) - 1) * 2 ^ (e - 52) = q - 2 ^ (e - 52) := by
      field_simp
    linarith
  have hbig : ¬ (2 : ℚ) ^ (1024 : Int) ≤
      |(roundHalfEven (q / 2 ^ (e - 52)) : ℚ) * 2 ^ (e - 52)| := by
    rw [abs_of_neg hlt, not_le]
    calc -((roundHalfEven (q / 2 ^ (e - 52)) : ℚ) * 2 ^ (e - 52)) ≤ 2 := by linarith
      _ < 2 ^ (1024 : Int) := by norm_num
  refine ⟨_, ?_, hlt⟩
  simp only [roundBinary64, if_neg hq, habs, ← he, hmax, if_neg hbig]

theorem stdRemove_fst_length (xs : List α) (p : α) : (stdRemove xs p).1.length = xs.length := by
  have h : (xs.filter (fun e => decide (e ≠ p))).length ≤ xs.length := List.length_filter_le _ _
  simp only [stdRemove, List.length_append, List.length_drop]
  omega

theorem stdRemove_snd_lt (xs : List α) (p : α) (hp : p ∈ xs) :
    (stdRemove xs p).2 < (stdRemove xs p).1.length := by
  rw [stdRemove_fst_length]
  have h := List.length_filter_lt_length_iff_exists (p := fun e => decide (e ≠ p)) (l := xs)
  simp only [stdRemove]
  exact h.2 ⟨p, hp, by simp⟩

theorem stdRemove_erase_of_nodup (xs : List α) (p : α) (hn : xs.Nodup) (hp : p ∈ xs) :
    (stdRemove xs p).1.eraseIdx (stdRemove xs p).2 = xs.erase p := by
  have hf : xs.filter (fun e => decide (e ≠ p)) = xs.erase p := by
    rw [hn.erase_eq_filter p]
    congr 1
    funext e
    by_cases h : e = p <;> simp [h]
  have hl : (xs.erase p).length = xs.length - 1 := List.length_erase_of_mem hp
  have hpos : 0 < xs.length := List.length_pos_of_mem hp
  simp only [stdRemove, hf]
  rw [List.eraseIdx_append_of_length_le (le_refl _)]
  have hd : (xs.drop (xs.erase p).length).length = 1 := by
    rw [List.length_drop, hl]; omega
  match hx : xs.drop (xs.erase p).length, hd with
  | [y], _ => simp

theorem nodup_snoc {β : Type} {xs : List β} {p : β} (hn : xs.Nodup) (hp : p ∉ xs) : (xs ++ [p]).Nodup := by
  rw [List.nodup_append]
  refine ⟨hn, List.nodup_singleton p, ?_⟩
  intro a ha hb
  rw [List.mem_singleton] at hb
  exact hp (hb ▸ ha)

theorem sizeMinusOne_le (n : Nat) (hn : 1 ≤ n) : sizeMinusOne n ≤ n - 1 := by
  unfold sizeMinusOne
  have h : n + 2 ^ SIZE_WIDTH - 1 = (n - 1) + 2 ^ SIZE_WIDTH := by
    have : 0 < 2 ^ SIZE_WIDTH := Nat.two_pow_pos _
    omega
  rw [h, Nat.add_mod_right]
  exact Nat.mod_le _ _

theorem uniformInt_zero_le (hi raw : Nat) : uniformInt 0 hi raw ≤ hi := by
  unfold uniformInt
  have : raw % (hi - 0 + 1) < hi - 0 + 1 := Nat.mod_lt _ (Nat.succ_pos _)
  omega

theorem victim_lt (n raw : Nat) (hn : 1 ≤ n) : uniformInt 0 (sizeMinusOne n) raw < n := by
  have h1 := uniformInt_zero_le (sizeMinusOne n) raw
  have h2 := sizeMinusOne_le n hn
  omega

end Lists

/-! ## The branches of `access` -/

namespace TLB

section Branches

variable {G α : Type} [DecidableEq α] (gen : G → Nat × G)

theorem access_hit_lru (t : TLB G α) (p : α) (hp : p ∈ t.entries)
    (hpol : t.policy = ReplacementPolicy.LRU) (hn : t.entries.Nodup) :
    access gen t p = some { t with hits := toInt32 (t.hits + 1), entries := t.entries.erase p ++ [p] } := by
  simp only [access, if_pos hp, if_pos hpol, if_pos (stdRemove_snd_lt _ _ hp),
    stdRemove_erase_of_nodup _ _ hn hp]

theorem access_hit_keep (t : TLB G α) (p : α) (hp : p ∈ t.entries)
    (hpol : t.policy ≠ ReplacementPolicy.LRU) :
    access gen t p = some { t with hits := toInt32 (t.hits + 1) } := by
  simp only [access, if_pos hp, if_neg hpol]

theorem access_miss_room (t : TLB G α) (p : α) (hp : p ∉ t.entries)
    (hlen : t.entries.length < t.size) :
    access gen t p = some { t with misses := toInt32 (t.misses + 1), entries := t.entries ++ [p] } := by
  simp only [access, if_neg hp, if_pos hlen]

theorem access_miss_front (t : TLB G α) (p e : α) (rest : List α) (hp : p ∉ t.entries)
    (hlen : ¬ t.entries.length < t.size) (hpol : t.policy ≠ ReplacementPolicy.RANDOM)
    (he : t.entries = e :: rest) :
    access gen t p = some { t with misses := toInt32 (t.misses + 1), entries := rest ++ [p] } := by
  simp only [access, if_neg hp, if_neg hlen]
  cases hq : t.policy with
  | FIFO => simp only [he]
  | LRU => simp only [he]
  | RANDOM => exact absurd hq hpol

theorem access_miss_random (t : TLB G α) (p : α) (hp : p ∉ t.entries)
    (hlen : ¬ t.entries.length < t.size) (hpol : t.policy = ReplacementPolicy.RANDOM)
    (hne : 1 ≤ t.entries.length) :
    access gen t p = some { t with
      misses := toInt32 (t.misses + 1),
      entries := t.entries.eraseIdx
        (uniformInt 0 (sizeMinusOne t.entries.length) (gen t.rng).1) ++ [p],
      rng := (gen t.rng).2 } := by
  simp only [access, if_neg hp, if_neg hlen, hpol, if_pos (victim_lt _ (gen t.rng).1 hne)]

end Branches

/-! ## One access and a replay preserve well-formedness -/

section Steps

variable {G α : Type} [DecidableEq α] (gen : G → Nat × G)

theorem wf_new {G β : Type} (capacity : Nat) (policy : ReplacementPolicy) (seed : G) :
    WF (TLB.new capacity policy seed : TLB G β) :=
  ⟨List.nodup_nil, Nat.zero_le _⟩

theorem access_step (t : TLB G α) (hwf : WF t) (hk : 1 ≤ t.size) (p : α) :
    ∃ t1, access gen t p = some t1 ∧ WF t1 ∧ t1.size = t.size ∧ t1.policy = t.policy ∧
      ((p ∈ t.entries ∧ t1.hits = toInt32 (t.hits + 1) ∧ t1.misses = t.misses) ∨
       (p ∉ t.entries ∧ t1.hits = t.hits ∧ t1.misses = toInt32 (t.misses + 1))) := by
  obtain ⟨hn, hl⟩ := hwf
  by_cases hp : p ∈ t.entries
  · by_cases hpol : t.policy = ReplacementPolicy.LRU
    · refine ⟨_, access_hit_lru gen t p hp hpol hn, ⟨?_, ?_⟩, rfl, rfl, Or.inl ⟨hp, rfl, rfl⟩⟩
      · exact nodup_snoc (hn.erase p) (hn.not_mem_erase)
      · have h1 := List.length_erase_of_mem hp
        have h2 := List.length_pos_of_mem hp
        simp only [List.length_append, List.length_singleton, h1]
        omega
    · exact ⟨_, access_hit_keep gen t p hp hpol, ⟨hn, hl⟩, rfl, rfl, Or.inl ⟨hp, rfl, rfl⟩⟩
  · by_cases hlen : t.entries.length < t.size
    · refine ⟨_, access_miss_room gen t p hp hlen, ⟨nodup_snoc hn hp, ?_⟩, rfl, rfl,
        Or.inr ⟨hp, rfl, rfl⟩⟩
      simp only [List.length_append, List.length_singleton]
      omega
    · have hpos : 1 ≤ t.entries.length := by omega
      by_cases hpol : t.policy = ReplacementPolicy.RANDOM
      · refine ⟨_, access_miss_random gen t p hp hlen hpol hpos, ⟨?_, ?_⟩, rfl, rfl,
          Or.inr ⟨hp, rfl, rfl⟩⟩
        · exact nodup_snoc (hn.sublist (List.eraseIdx_sublist _ _))
            (fun h => hp ((List.eraseIdx_sublist _ _).subset h))
        · have h1 := List.length_eraseIdx_of_lt (victim_lt t.entries.length (gen t.rng).1 hpos)
          simp only [List.length_append, List.length_singleton]
          omega
      · cases he : t.entries with
        | nil => rw [he] at hpos; simp at hpos
        | cons e rest =>
          have hn1 : (e :: rest).Nodup := he ▸ hn
          have hp1 : p ∉ e :: rest := he ▸ hp
          have hl1 : (e :: rest).length ≤ t.size := he ▸ hl
          refine ⟨_, access_miss_front gen t p e rest hp hlen hpol he, ⟨?_, ?_⟩, rfl, rfl,
            Or.inr ⟨hp1, rfl, rfl⟩⟩
          · exact nodup_snoc (List.nodup_cons.1 hn1).2 (fun h => hp1 (List.mem_cons_of_mem _ h))
          · simp only [List.length_append, List.length_cons, List.length_nil] at hl1 ⊢
            omega

theorem replay_append (t : TLB G α) (xs ys : List α) :
    replay gen t (xs ++ ys) = (replay gen t xs).bind (fun t1 => replay gen t1 ys) := by
  induction xs generalizing t with
  | nil => rfl
  | cons x xs ih =>
    simp only [List.cons_append, replay]
    cases access gen t x with
    | none => rfl
    | some t1 => exact ih t1

theorem replay_snoc (t : TLB G α) (xs : List α) (p : α) :
    replay gen t (xs ++ [p]) = (replay gen t xs).bind (fun t1 => access gen t1 p) := by
  rw [replay_append]
  congr 1
  funext t1
  simp only [replay]
  cases access gen t1 p <;> rfl

theorem missLog_cons_some (t t1 : TLB G α) (x : α) (xs : List α)
    (h : access gen t x = some t1) :
    missLog gen t (x :: xs) = (if x ∈ t.entries then [] else [x]) ++ missLog gen t1 xs := by
  simp only [missLog, h]

/-- The log of missed pages after one more access. -/
theorem missLog_snoc (xs : List α) (p : α) :
    ∀ (t s : TLB G α), replay gen t xs = some s →
      missLog gen t (xs ++ [p]) = missLog gen t xs ++ (if p ∈ s.entries then [] else [p]) := by
  induction xs with
  | nil =>
    intro t s h
    simp only [replay] at h
    injection h with h
    subst h
    cases hacc : access gen t p <;> simp [missLog, hacc]
  | cons x xs ih =>
    intro t s h
    cases hacc : access gen t x with
    | none => simp [replay, hacc] at h
    | some t1 =>
      simp only [replay, hacc, Option.some_bind] at h
      rw [List.cons_append, missLog_cons_some gen t t1 x (xs ++ [p]) hacc,
        missLog_cons_some gen t t1 x xs hacc, ih t1 s h, List.append_assoc]

/-- The pages logged as missed form a subsequence of the trace. -/
theorem missLog_sublist (xs : List α) : ∀ t : TLB G α, (missLog gen t xs).Sublist xs := by
  induction xs with
  | nil => intro t; exact List.Sublist.refl _
  | cons x xs ih =>
    intro t
    cases hacc : access gen t x with
    | none =>
      by_cases hx : x ∈ t.entries
      · simp only [missLog, hacc, if_pos hx, List.append_nil]
        exact List.nil_sublist _
      · simp only [missLog, hacc, if_neg hx, List.append_nil]
        exact List.Sublist.cons₂ x (List.nil_sublist _)
    | some t1 =>
      rw [missLog_cons_some gen t t1 x xs hacc]
      by_cases hx : x ∈ t.entries
      · rw [if_pos hx, List.nil_append]
        exact List.Sublist.cons x (ih t1)
      · rw [if_neg hx, List.singleton_append]
        exact List.Sublist.cons₂ x (ih t1)

theorem missLog_length_le (t : TLB G α) (xs : List α) :
    (missLog gen t xs).length ≤ xs.length :=
  (missLog_sublist gen xs t).length_le

theorem replay_wf (t : TLB G α) (hwf : WF t) (hk : 1 ≤ t.size) (xs : List α) :
    ∃ t1, replay gen t xs = some t1 ∧ WF t1 ∧ t1.size = t.size ∧ t1.policy = t.policy := by
  induction xs generalizing t with
  | nil => exact ⟨t, rfl, hwf, rfl, rfl⟩
  | cons x xs ih =>
    obtain ⟨t1, h1, hwf1, hs1, hp1, _⟩ := access_step gen t hwf hk x
    obtain ⟨t2, h2, hwf2, hs2, hp2⟩ := ih t1 hwf1 (hs1 ▸ hk)
    refine ⟨t2, ?_, hwf2, hs2.trans hs1, hp2.trans hp1⟩
    simp only [replay, h1, Option.some_bind, h2]

/-- A replay from a well-formed state of capacity at least 1 whose counters are values of
type `int`: `misses` has counted the logged misses and `hits` the other accesses, both
modulo `2 ^ 32`. -/
theorem replay_counters (t : TLB G α) (hwf : WF t) (hk : 1 ≤ t.size) (hr : CountersInt t)
    (xs : List α) :
    ∃ t1, replay gen t xs = some t1 ∧ WF t1 ∧ t1.size = t.size ∧ t1.policy = t.policy ∧
      CountersInt t1 ∧
      t1.misses = toInt32 (t.misses + ((missLog gen t xs).length : Int)) ∧
      t1.hits =
        toInt32 (t.hits + ((xs.length : Int) - ((missLog gen t xs).length : Int))) := by
  induction xs generalizing t with
  | nil =>
    refine ⟨t, rfl, hwf, rfl, rfl, hr, ?_, ?_⟩
    · unfold CountersInt at hr
      simp only [missLog, List.length_nil, Nat.cast_zero, add_zero]
      unfold toInt32
      omega
    · unfold CountersInt at hr
      simp only [missLog, List.length_nil, Nat.cast_zero, sub_zero, add_zero]
      unfold toInt32
      omega
  | cons x xs ih =>
    obtain ⟨t1, h1, hwf1, hs1, hp1, hc1⟩ := access_step gen t hwf hk x
    have hr1 : CountersInt t1 := by
      unfold CountersInt at hr ⊢
      rcases hc1 with ⟨_, ha, hb⟩ | ⟨_, ha, hb⟩
      · rw [ha, hb]; unfold toInt32; omega
      · rw [ha, hb]; unfold toInt32; omega
    obtain ⟨t2, h2, hwf2, hs2, hp2, hr2, hm2, hh2⟩ := ih t1 hwf1 (hs1 ▸ hk) hr1
    have hle := missLog_length_le gen t1 xs
    refine ⟨t2, ?_, hwf2, hs2.trans hs1, hp2.trans hp1, hr2, ?_, ?_⟩
    · simp only [replay, h1, Option.some_bind, h2]
    · rw [hm2, missLog_cons_some gen t t1 x xs h1]
      rcases hc1 with ⟨hx, _, hb⟩ | ⟨hx, _, hb⟩
      · rw [if_pos hx, hb, List.nil_append]
      · rw [if_neg hx, hb, toInt32_add]
        simp only [List.length_append, List.length_singleton, Nat.cast_add, Nat.cast_one]
        congr 1
        omega
    · rw [hh2, missLog_cons_some gen t t1 x xs h1]
      rcases hc1 with ⟨hx, ha, _⟩ | ⟨hx, ha, _⟩
      · rw [if_pos hx, ha, toInt32_add, List.nil_append]
        simp only [List.length_cons, Nat.cast_add, Nat.cast_one]
        congr 1
        omega
      · rw [if_neg hx, ha]
        simp only [List.length_append, List.length_singleton, List.length_cons,
          List.length_nil, Nat.cast_add, Nat.cast_one, Nat.cast_zero]
        congr 1
        omega

theorem countersInt_new {G β : Type} (capacity : Nat) (policy : ReplacementPolicy) (seed : G) :
    CountersInt (TLB.new capacity policy seed : TLB G β) := by
  refine ⟨?_, ?_, ?_, ?_⟩ <;> simp [TLB.new]

end Steps

end TLB

/-! ## Invariants of a replay from a fresh engine -/

section Invariants

open TLB

variable {G α : Type} [DecidableEq α]

/-- C1, capacity invariant: for every capacity of at least 1, every policy (for RANDOM:
every generator and seed, hence every sequence of victims) and every trace, the replay of
each prefix of the trace on a freshly constructed engine is defined and leaves at most
`capacity` resident entries; that is, the bound holds after every `access` call. -/
theorem capacity_invariant (gen : G → Nat × G) (capacity : Nat) (policy : ReplacementPolicy)
    (seed : G) (trace : List α) (hcap : 1 ≤ capacity) (n : Nat) :
    ∃ t, replay gen (TLB.new capacity policy seed) (trace.take n) = some t ∧
      t.entries.length ≤ capacity := by
  obtain ⟨t, ht, hwf, hs, _⟩ :=
    replay_wf gen (TLB.new capacity policy seed) (wf_new capacity policy seed) hcap (trace.take n)
  have hs1 : t.size = capacity := hs
  exact ⟨t, ht, hs1 ▸ hwf.2⟩

theorem capacity_invariant_witness :
    1 ≤ 2 ∧ ∃ t, replay listGen (TLB.new 2 ReplacementPolicy.RANDOM [5, 7])
      (["A", "B", "C", "A"].take 3) = some t ∧ t.entries.length ≤ 2 :=
  ⟨by decide,
    capacity_invariant listGen 2 ReplacementPolicy.RANDOM [5, 7] ["A", "B", "C", "A"]
      (by decide) 3⟩

/-- C2, no duplicates: for every capacity of at least 1, every policy and every trace, the
replay of each prefix of the trace on a freshly constructed engine is defined and leaves a
resident sequence `entries` in which no page identifier occurs twice. -/
theorem no_duplicates_invariant (gen : G → Nat × G) (capacity : Nat)
    (policy : ReplacementPolicy) (seed : G) (trace : List α) (hcap : 1 ≤ capacity) (n : Nat) :
    ∃ t, replay gen (TLB.new capacity policy seed) (trace.take n) = some t ∧
      t.entries.Nodup := by
  obtain ⟨t, ht, hwf, _⟩ :=
    replay_wf gen (TLB.new capacity policy seed) (wf_new capacity policy seed) hcap (trace.take n)
  exact ⟨t, ht, hwf.1⟩

theorem no_duplicates_invariant_witness :
    1 ≤ 2 ∧ ∃ t, replay listGen (TLB.new 2 ReplacementPolicy.LRU [])
      (["A", "B", "A", "C", "A"].take 4) = some t ∧ t.entries.Nodup :=
  ⟨by decide,
    no_duplicates_invariant listGen 2 ReplacementPolicy.LRU [] ["A", "B", "A", "C", "A"]
      (by decide) 4⟩

/-- The counters after a replay of fewer than `2 ^ 31` accesses on a fresh engine: `misses`
is the number of logged misses and `hits` the number of the other accesses. -/
theorem replay_counts (gen : G → Nat × G) (capacity : Nat) (policy : ReplacementPolicy)
    (seed : G) (xs : List α) (hcap : 1 ≤ capacity) (hlen : xs.length < 2 ^ 31) :
    ∃ t, replay gen (TLB.new capacity policy seed) xs = some t ∧ WF t ∧ t.size = capacity ∧
      t.policy = policy ∧
      t.misses = ((missLog gen (TLB.new capacity policy seed) xs).length : Int) ∧
      t.hits = (xs.length : Int) -
        ((missLog gen (TLB.new capacity policy seed) xs).length : Int) ∧
      (missLog gen (TLB.new capacity policy seed) xs).length ≤ xs.length := by
  obtain ⟨t, ht, hwf, hs, hp, _, hm, hh⟩ :=
    replay_counters gen (TLB.new capacity policy seed) (wf_new capacity policy seed) hcap
      (countersInt_new capacity policy seed) xs
  have hle := missLog_length_le gen (TLB.new capacity policy seed) xs
  have h0 : (TLB.new capacity policy seed : TLB G α).misses = 0 := rfl
  have h1 : (TLB.new capacity policy seed : TLB G α).hits = 0 := rfl
  rw [h0] at hm
  rw [h1] at hh
  refine ⟨t, ht, hwf, hs, hp, ?_, ?_, hle⟩
  · rw [hm]; unfold toInt32; omega
  · rw [hh]; unfold toInt32; omega

/-- Replaying one page `n + 1` times: one miss, then `n` hits counted modulo `2 ^ 32`. -/
theorem replay_replicate (gen : G → Nat × G) (k : Nat) (policy : ReplacementPolicy) (seed : G)
    (a : α) (hk : 1 ≤ k) (n : Nat) :
    replay gen (TLB.new k policy seed) (List.replicate (n + 1) a) =
      some { size := k, policy := policy, entries := [a], rng := seed,
             hits := toInt32 (n : Int), misses := 1 } := by
  induction n with
  | zero =>
    have hx : a ∉ (TLB.new k policy seed : TLB G α).entries := List.not_mem_nil a
    have hacc := access_miss_room gen (TLB.new k policy seed) a hx (by show 0 < k; omega)
    show replay gen (TLB.new k policy seed) [a] = _
    simp only [replay, hacc, Option.some_bind]
    simp [TLB.new, toInt32]
  | succ n ih =>
    rw [List.replicate_succ', replay_snoc, ih, Option.some_bind]
    have hx : a ∈ ([a] : List α) := List.mem_singleton_self a
    by_cases hl : policy = ReplacementPolicy.LRU
    · rw [access_hit_lru gen _ a hx hl (List.nodup_singleton a)]
      simp only [toInt32_add, List.erase_cons_head, List.nil_append, Nat.cast_add, Nat.cast_one]
    · rw [access_hit_keep gen _ a hx hl]
      simp only [toInt32_add, Nat.cast_add, Nat.cast_one]

/-- C3 as stated fails: at capacity 1 under FIFO, after the `2 ^ 31 + 1` accesses of the
trace `A, A, ..., A` the counter `hits` has wrapped around to `-2 ^ 31` and
`hits + misses` is not the number of accesses. -/
theorem counter_accounting_counterexample :
    ∃ t, replay listGen (TLB.new 1 ReplacementPolicy.FIFO [])
        (List.replicate (2 ^ 31 + 1) "A") = some t ∧
      t.hits = -2147483648 ∧ t.misses = 1 ∧
      t.hits + t.misses ≠ ((List.replicate (2 ^ 31 + 1) "A").length : Int) := by
  refine ⟨_, replay_replicate listGen 1 ReplacementPolicy.FIFO [] "A" (by decide) (2 ^ 31),
    ?_, rfl, ?_⟩
  · show toInt32 ((2 ^ 31 : Nat) : Int) = -2147483648
    decide
  · show toInt32 ((2 ^ 31 : Nat) : Int) + 1 ≠ _
    rw [List.length_replicate]
    decide

/-- C3, counter accounting, for the traces on which the `int` counters do not overflow: for
every policy, every capacity of at least 1 and every trace of length `N < 2 ^ 31`, the
replay on a fresh engine is defined and ends with `hits + misses = N`, both counters
non-negative; and every access of the trace is defined and increments exactly one of the
two counters by exactly 1, leaving the other unchanged (so neither counter decreases). -/
theorem counter_accounting (gen : G → Nat × G) (capacity : Nat) (policy : ReplacementPolicy)
    (seed : G) (trace : List α) (hcap : 1 ≤ capacity) (hlen : trace.length < 2 ^ 31) :
    (∃ t, replay gen (TLB.new capacity policy seed) trace = some t ∧
      t.hits + t.misses = trace.length ∧ 0 ≤ t.hits ∧ 0 ≤ t.misses) ∧
    ∀ pre page post, trace = pre ++ page :: post →
      ∃ t t1, replay gen (TLB.new capacity policy seed) pre = some t ∧
        access gen t page = some t1 ∧
        replay gen (TLB.new capacity policy seed) (pre ++ [page]) = some t1 ∧
        t.hits + t.misses = pre.length ∧ 0 ≤ t.hits ∧ 0 ≤ t.misses ∧
        ((t1.hits = t.hits + 1 ∧ t1.misses = t.misses) ∨
         (t1.hits = t.hits ∧ t1.misses = t.misses + 1)) := by
  constructor
  · obtain ⟨t, ht, _, _, _, hm, hh, hle⟩ :=
      replay_counts gen capacity policy seed trace hcap hlen
    exact ⟨t, ht, by omega, by omega, by omega⟩
  · intro pre page post htr
    have hl1 : (pre ++ [page]).length < 2 ^ 31 := by
      have : trace.length = pre.length + (post.length + 1) := by
        rw [htr, List.length_append, List.length_cons]
      simp only [List.length_append, List.length_singleton]
      omega
    have hl0 : pre.length < 2 ^ 31 := by
      simp only [List.length_append, List.length_singleton] at hl1
      omega
    obtain ⟨t, ht, _, _, _, hm, hh, hle⟩ :=
      replay_counts gen capacity policy seed pre hcap hl0
    obtain ⟨t1, ht1, _, _, _, hm1, hh1, _⟩ :=
      replay_counts gen capacity policy seed (pre ++ [page]) hcap hl1
    have hacc : access gen t page = some t1 := by
      rw [replay_snoc, ht] at ht1
      exact ht1
    rw [missLog_snoc gen pre page _ t ht] at hm1 hh1
    refine ⟨t, t1, ht, hacc, ht1, by omega, by omega, by omega, ?_⟩
    by_cases hx : page ∈ t.entries
    · rw [if_pos hx] at hm1 hh1
      simp only [List.append_nil, List.length_append, List.length_singleton, Nat.cast_add,
        Nat.cast_one] at hm1 hh1
      left
      constructor <;> omega
    · rw [if_neg hx] at hm1 hh1
      simp only [List.length_append, List.length_singleton, Nat.cast_add, Nat.cast_one] at hm1 hh1
      right
      constructor <;> omega

theorem counter_accounting_witness :
    1 ≤ 2 ∧ ["A", "B", "C", "A"].length < 2 ^ 31 ∧
    ((∃ t, replay listGen (TLB.new 2 ReplacementPolicy.FIFO []) ["A", "B", "C", "A"]
        = some t ∧
      t.hits + t.misses = (["A", "B", "C", "A"].length : Int) ∧ 0 ≤ t.hits ∧ 0 ≤ t.misses) ∧
    ∀ pre page post, ["A", "B", "C", "A"] = pre ++ page :: post →
      ∃ t t1, replay listGen (TLB.new 2 ReplacementPolicy.FIFO []) pre = some t ∧
        access listGen t page = some t1 ∧
        replay listGen (TLB.new 2 ReplacementPolicy.FIFO []) (pre ++ [page]) = some t1 ∧
        t.hits + t.misses = (pre.length : Int) ∧ 0 ≤ t.hits ∧ 0 ≤ t.misses ∧
        ((t1.hits = t.hits + 1 ∧ t1.misses = t.misses) ∨
         (t1.hits = t.hits ∧ t1.misses = t.misses + 1))) :=
  ⟨by decide, by decide,
    counter_accounting listGen 2 ReplacementPolicy.FIFO [] ["A", "B", "C", "A"] (by decide)
      (by decide)⟩

end Invariants

/-! ## Traces with at most `capacity` distinct pages -/

section NoEviction

open TLB

variable {G α : Type} [DecidableEq α]

theorem dedup_length_snoc (xs : List α) (p : α) :
    (xs ++ [p]).dedup.length = if p ∈ xs then xs.dedup.length else xs.dedup.length + 1 := by
  rw [← List.card_toFinset, ← List.card_toFinset, List.toFinset_append, List.toFinset_cons,
    List.toFinset_nil, Finset.union_comm]
  simp only [insert_emptyc_eq]
  rw [← Finset.insert_eq]
  split
  · rename_i h
    rw [Finset.insert_eq_of_mem (List.mem_toFinset.2 h)]
  · rename_i h
    rw [Finset.card_insert_of_not_mem (fun h1 => h (List.mem_toFinset.1 h1))]

theorem dedup_length_le_of_subset {xs ys : List α} (h : xs ⊆ ys) :
    xs.dedup.length ≤ ys.dedup.length := by
  rw [← List.card_toFinset, ← List.card_toFinset]
  apply Finset.card_le_card
  intro a ha
  exact List.mem_toFinset.2 (h (List.mem_toFinset.1 ha))

end NoEviction

/-! ## LRU against its reference definition -/

section LRUReference

open TLB

variable {G α : Type} [DecidableEq α]

theorem lastUseOrder_eq_dedup (xs : List α) : lastUseOrder xs = xs.dedup := by
  induction xs with
  | nil => rfl
  | cons p rest ih =>
    by_cases h : p ∈ rest
    · simp only [lastUseOrder, if_pos h, List.dedup_cons_of_mem h, ih]
    · simp only [lastUseOrder, if_neg h, List.dedup_cons_of_not_mem h, ih]

theorem mem_lastUseOrder (xs : List α) (q : α) : q ∈ lastUseOrder xs ↔ q ∈ xs := by
  rw [lastUseOrder_eq_dedup]; exact List.mem_dedup

theorem nodup_lastUseOrder (xs : List α) : (lastUseOrder xs).Nodup := by
  rw [lastUseOrder_eq_dedup]; exact List.nodup_dedup xs

theorem lastUseOrder_cons_of_mem {x : α} {xs : List α} (h : x ∈ xs) :
    lastUseOrder (x :: xs) = lastUseOrder xs := by
  simp only [lastUseOrder, if_pos h]

theorem lastUseOrder_cons_of_not_mem {x : α} {xs : List α} (h : x ∉ xs) :
    lastUseOrder (x :: xs) = x :: lastUseOrder xs := by
  simp only [lastUseOrder, if_neg h]

theorem lastUseOrder_snoc (xs : List α) (p : α) :
    lastUseOrder (xs ++ [p]) = (lastUseOrder xs).erase p ++ [p] := by
  induction xs with
  | nil => simp [lastUseOrder]
  | cons x xs ih =>
    rw [List.cons_append]
    by_cases hx : x = p
    · subst hx
      have h1 : x ∈ xs ++ [x] := by simp
      rw [lastUseOrder_cons_of_mem h1, ih]
      by_cases h2 : x ∈ xs
      · rw [lastUseOrder_cons_of_mem h2]
      · rw [lastUseOrder_cons_of_not_mem h2, List.erase_cons_head,
          List.erase_of_not_mem (fun h => h2 ((mem_lastUseOrder xs x).1 h))]
    · by_cases h2 : x ∈ xs
      · have h1 : x ∈ xs ++ [p] := List.mem_append_left _ h2
        rw [lastUseOrder_cons_of_mem h1, lastUseOrder_cons_of_mem h2, ih]
      · have h1 : x ∉ xs ++ [p] := by
          simp only [List.mem_append, List.mem_singleton, not_or]
          exact ⟨h2, hx⟩
        have hbeq : ¬ (x == p) = true := by simpa using hx
        rw [lastUseOrder_cons_of_not_mem h1, lastUseOrder_cons_of_not_mem h2, ih,
          List.erase_cons_tail hbeq, List.cons_append]

/-- The pages of `lastUseOrder` are listed by increasing position of last occurrence. -/
theorem lastUseOrder_sorted (xs : List α) :
    (lastUseOrder xs).Pairwise (fun a b => lastOccurrence xs a < lastOccurrence xs b) := by
  induction xs with
  | nil => exact List.Pairwise.nil
  | cons x xs ih =>
    have hlift : (lastUseOrder xs).Pairwise
        (fun a b => lastOccurrence (x :: xs) a < lastOccurrence (x :: xs) b) := by
      refine List.Pairwise.imp_of_mem ?_ ih
      intro a b ha hb hab
      have ha1 := (mem_lastUseOrder xs a).1 ha
      have hb1 := (mem_lastUseOrder xs b).1 hb
      simp only [lastOccurrence, if_pos ha1, if_pos hb1]
      omega
    by_cases h : x ∈ xs
    · simp only [lastUseOrder, if_pos h]
      exact hlift
    · simp only [lastUseOrder, if_neg h]
      refine List.Pairwise.cons ?_ hlift
      intro b hb
      have hb1 := (mem_lastUseOrder xs b).1 hb
      simp only [lastOccurrence, if_neg h, if_pos hb1]
      omega

/-- The LRU resident sequence is a suffix of `lastUseOrder`; it is the whole of it until the
engine is full. -/
theorem replay_lru (gen : G → Nat × G) (k : Nat) (seed : G) (hk : 1 ≤ k) (xs : List α) :
    ∃ t A, replay gen (TLB.new k ReplacementPolicy.LRU seed) xs = some t ∧ t.size = k ∧
      t.policy = ReplacementPolicy.LRU ∧ lastUseOrder xs = A ++ t.entries ∧
      (A = [] ∨ t.entries.length = k) ∧ t.entries.length ≤ k := by
  induction xs using List.reverseRecOn with
  | nil => exact ⟨TLB.new k ReplacementPolicy.LRU seed, [], rfl, rfl, rfl, rfl, Or.inl rfl,
      Nat.zero_le _⟩
  | append_singleton xs p ih =>
    obtain ⟨t, A, ht, hs, hpol, hL, hA, hlen⟩ := ih
    have hn : (A ++ t.entries).Nodup := hL ▸ nodup_lastUseOrder xs
    have hne : t.entries.Nodup := (List.nodup_append.1 hn).2.1
    have hdis : ∀ a, a ∈ A → a ∈ t.entries → False := fun a h1 h2 =>
      (List.nodup_append.1 hn).2.2 h1 h2
    rw [replay_snoc, ht, Option.some_bind, lastUseOrder_snoc, hL]
    by_cases hp : p ∈ t.entries
    · have hpA : p ∉ A := fun h => hdis p h hp
      refine ⟨_, A, access_hit_lru gen t p hp hpol hne, hs, hpol, ?_, ?_, ?_⟩
      · show (A ++ t.entries).erase p ++ [p] = A ++ (t.entries.erase p ++ [p])
        rw [List.erase_append_right _ hpA, List.append_assoc]
      · show A = [] ∨ (t.entries.erase p ++ [p]).length = k
        have h1 := List.length_erase_of_mem hp
        have h2 := List.length_pos_of_mem hp
        rcases hA with h | h
        · exact Or.inl h
        · right
          simp only [List.length_append, List.length_singleton, h1]
          omega
      · show (t.entries.erase p ++ [p]).length ≤ k
        have h1 := List.length_erase_of_mem hp
        have h2 := List.length_pos_of_mem hp
        simp only [List.length_append, List.length_singleton, h1]
        omega
    · by_cases hroom : t.entries.length < t.size
      · have hA0 : A = [] := by
          rcases hA with h | h
          · exact h
          · omega
        subst hA0
        refine ⟨_, [], access_miss_room gen t p hp hroom, hs, hpol, ?_, Or.inl rfl, ?_⟩
        · show ([] ++ t.entries).erase p ++ [p] = [] ++ (t.entries ++ [p])
          rw [List.nil_append, List.nil_append, List.erase_of_not_mem hp]
        · show (t.entries ++ [p]).length ≤ k
          simp only [List.length_append, List.length_singleton]
          omega
      · obtain ⟨e, rest, he⟩ : ∃ e rest, t.entries = e :: rest := by
          cases h : t.entries with
          | nil => rw [h] at hroom; simp at hroom; omega
          | cons e rest => exact ⟨e, rest, rfl⟩
        have hfull : rest.length + 1 = k := by
          have h1 : t.entries.length = rest.length + 1 := by rw [he]; rfl
          omega
        refine ⟨_, A.erase p ++ [e], access_miss_front gen t p e rest hp hroom
          (by rw [hpol]; decide) he, hs, hpol, ?_, Or.inr ?_, ?_⟩
        · show (A ++ t.entries).erase p ++ [p] = (A.erase p ++ [e]) ++ (rest ++ [p])
          by_cases hpA : p ∈ A
          · rw [List.erase_append_left _ hpA, he]
            simp only [List.append_assoc, List.singleton_append, List.cons_append,
              List.nil_append]
          · rw [List.erase_append_right _ hpA, List.erase_of_not_mem hp,
              List.erase_of_not_mem hpA, he]
            simp only [List.append_assoc, List.singleton_append, List.cons_append,
              List.nil_append]
        · show (rest ++ [p]).length = k
          simp only [List.length_append, List.length_singleton]
          exact hfull
        · show (rest ++ [p]).length ≤ k
          simp only [List.length_append, List.length_singleton]
          omega

theorem lastEntries_of_suffix {β : Type} (k : Nat) (L A es : List β) (hL : L = A ++ es)
    (hA : A = [] ∨ es.length = k) (hlen : es.length ≤ k) : es = lastEntries k L := by
  unfold lastEntries
  rw [hL]
  rcases hA with h | h
  · subst h
    simp only [List.nil_append]
    rw [Nat.min_eq_right hlen, Nat.sub_self, List.drop_zero]
  · have h1 : (A ++ es).length - min k (A ++ es).length = A.length := by
      simp only [List.length_append, h]
      rw [Nat.min_eq_left (by omega)]
      omega
    rw [h1, List.drop_left]

/-- C5, LRU equals its reference definition: for every capacity `k` of at least 1 and every
trace, the replay on a fresh LRU engine is defined and its resident sequence equals
`lruReference k trace`, the last `min k d` entries of the `d` distinct pages of the trace
ordered by last occurrence (least recently used first).  Hence, when the next access misses
on a full engine, the page evicted is the front entry, whose last occurrence in the trace
(insertion or hit) is older than that of every other resident page.  Scenario: capacity 2
and trace `[a, b, a, c]` with distinct pages give residents `[a, c]`, 1 hit and 3 misses. -/
theorem lru_matches_reference (gen : G → Nat × G) (k : Nat) (seed : G) (trace : List α)
    (hk : 1 ≤ k) :
    (∃ t, replay gen (TLB.new k ReplacementPolicy.LRU seed) trace = some t ∧
      t.entries = lruReference k trace ∧
      t.entries.length = min k (lastUseOrder trace).length ∧
      ∀ page, page ∉ t.entries → ¬ t.entries.length < t.size →
        ∃ victim rest t1, t.entries = victim :: rest ∧ access gen t page = some t1 ∧
          t1.entries = rest ++ [page] ∧
          ∀ q ∈ rest, lastOccurrence trace victim < lastOccurrence trace q) ∧
    (∀ a b c : α, a ≠ b → a ≠ c → b ≠ c →
      ∃ t, replay gen (TLB.new 2 ReplacementPolicy.LRU seed) [a, b, a, c] = some t ∧
        t.entries = [a, c] ∧ t.hits = 1 ∧ t.misses = 3) := by
  constructor
  · obtain ⟨t, A, ht, hs, hpol, hL, hA, hlen⟩ := replay_lru gen k seed hk trace
    refine ⟨t, ht, lastEntries_of_suffix k _ A t.entries hL hA hlen, ?_, ?_⟩
    · rw [hL, List.length_append]
      rcases hA with h | h
      · subst h
        simp only [List.length_nil, Nat.zero_add]
        omega
      · omega
    · intro page hp hroom
      obtain ⟨e, rest, he⟩ : ∃ e rest, t.entries = e :: rest := by
        cases h : t.entries with
        | nil => rw [h] at hroom; simp at hroom; omega
        | cons e rest => exact ⟨e, rest, rfl⟩
      refine ⟨e, rest, _, he, access_miss_front gen t page e rest hp hroom
        (by rw [hpol]; decide) he, rfl, ?_⟩
      have hsorted := lastUseOrder_sorted trace
      rw [hL, he] at hsorted
      have h2 := hsorted.sublist (List.sublist_append_right A (e :: rest))
      exact (List.pairwise_cons.1 h2).1
  · intro a b c hab hac hbc
    have hba : b ≠ a := Ne.symm hab
    have hca : c ≠ a := Ne.symm hac
    have hcb : c ≠ b := Ne.symm hbc
    simp [replay, access, stdRemove, TLB.new, hab, hac, hbc, hba, hca, hcb]
    decide

theorem lru_matches_reference_witness :
    1 ≤ 2 ∧
    ((∃ t, replay listGen (TLB.new 2 ReplacementPolicy.LRU []) ["A", "B", "A", "C"] = some t ∧
      t.entries = lruReference 2 ["A", "B", "A", "C"] ∧
      t.entries.length = min 2 (lastUseOrder ["A", "B", "A", "C"]).length ∧
      ∀ page, page ∉ t.entries → ¬ t.entries.length < t.size →
        ∃ victim rest t1, t.entries = victim :: rest ∧ access listGen t page = some t1 ∧
          t1.entries = rest ++ [page] ∧
          ∀ q ∈ rest, lastOccurrence ["A", "B", "A", "C"] victim
            < lastOccurrence ["A", "B", "A", "C"] q) ∧
    (∀ a b c : String, a ≠ b → a ≠ c → b ≠ c →
      ∃ t, replay listGen (TLB.new 2 ReplacementPolicy.LRU []) [a, b, a, c] = some t ∧
        t.entries = [a, c] ∧ t.hits = 1 ∧ t.misses = 3)) :=
  ⟨by decide, lru_matches_reference listGen 2 [] ["A", "B", "A", "C"] (by decide)⟩

end LRUReference

/-! ## FIFO evicts in insertion order -/

section FIFOOrder

open TLB

variable {G α : Type} [DecidableEq α]

/-- Under FIFO the resident sequence stays a suffix of the log of missed pages. -/
theorem replay_fifo (gen : G → Nat × G) (xs : List α) :
    ∀ (t : TLB G α) (L A : List α), t.policy = ReplacementPolicy.FIFO → 1 ≤ t.size →
      L = A ++ t.entries → (A = [] ∨ t.entries.length = t.size) →
      t.entries.length ≤ t.size →
      ∃ t1 A1, replay gen t xs = some t1 ∧ L ++ missLog gen t xs = A1 ++ t1.entries ∧
        (A1 = [] ∨ t1.entries.length = t.size) ∧ t1.entries.length ≤ t.size := by
  induction xs with
  | nil =>
    intro t L A _ _ hL hA hlen
    refine ⟨t, A, rfl, ?_, hA, hlen⟩
    simp only [missLog, List.append_nil]; exact hL
  | cons x xs ih =>
    intro t L A hpol hk hL hA hlen
    have hnl : t.policy ≠ ReplacementPolicy.LRU := by rw [hpol]; decide
    have hnr : t.policy ≠ ReplacementPolicy.RANDOM := by rw [hpol]; decide
    by_cases hp : x ∈ t.entries
    · have hacc := access_hit_keep gen t x hp hnl
      obtain ⟨t1, A1, h1, h2, h3, h4⟩ :=
        ih { t with hits := toInt32 (t.hits + 1) } L A hpol hk hL hA hlen
      refine ⟨t1, A1, ?_, ?_, h3, h4⟩
      · simp only [replay, hacc, Option.some_bind]; exact h1
      · rw [missLog_cons_some gen t _ x xs hacc, if_pos hp, List.nil_append]; exact h2
    · by_cases hroom : t.entries.length < t.size
      · have hacc := access_miss_room gen t x hp hroom
        have hA0 : A = [] := by
          rcases hA with h | h
          · exact h
          · omega
        subst hA0
        obtain ⟨t1, A1, h1, h2, h3, h4⟩ :=
          ih { t with misses := toInt32 (t.misses + 1), entries := t.entries ++ [x] } (L ++ [x])
            [] hpol hk (by rw [hL]; rfl) (Or.inl rfl)
            (by simp only [List.length_append, List.length_singleton]; omega)
        refine ⟨t1, A1, ?_, ?_, h3, h4⟩
        · simp only [replay, hacc, Option.some_bind]; exact h1
        · rw [missLog_cons_some gen t _ x xs hacc, if_neg hp, ← List.append_assoc]; exact h2
      · obtain ⟨e, rest, he⟩ : ∃ e rest, t.entries = e :: rest := by
          cases h : t.entries with
          | nil => rw [h] at hroom; simp at hroom; omega
          | cons e rest => exact ⟨e, rest, rfl⟩
        have hfull : rest.length + 1 = t.size := by
          have h1 : t.entries.length = rest.length + 1 := by rw [he]; rfl
          omega
        have hacc := access_miss_front gen t x e rest hp hroom hnr he
        obtain ⟨t1, A1, h1, h2, h3, h4⟩ :=
          ih { t with misses := toInt32 (t.misses + 1), entries := rest ++ [x] } (L ++ [x])
            (A ++ [e]) hpol hk
            (by rw [hL, he]; simp only [List.append_assoc, List.singleton_append,
                  List.cons_append, List.nil_append])
            (Or.inr (by simp only [List.length_append, List.length_singleton]; exact hfull))
            (by simp only [List.length_append, List.length_singleton]; omega)
        refine ⟨t1, A1, ?_, ?_, h3, h4⟩
        · simp only [replay, hacc, Option.some_bind]; exact h1
        · rw [missLog_cons_some gen t _ x xs hacc, if_neg hp, ← List.append_assoc]; exact h2

/-- C6, FIFO evicts strictly in insertion order: for every capacity `k` of at least 1 and
every trace, the replay on a fresh FIFO engine is defined and its resident sequence is the
last `min k m` pages that missed, in the order they missed, whatever hits occurred in
between, where `m` is the number of pages logged as missed.  The counter `misses` holds `m`
modulo `2 ^ 32`, which is `m` itself for a trace of fewer than `2 ^ 31` accesses.
Scenario: capacity 2 and trace `[a, b, c, a]` with distinct pages give 4 misses and 0
hits. -/
theorem fifo_insertion_order (gen : G → Nat × G) (k : Nat) (seed : G) (trace : List α)
    (hk : 1 ≤ k) :
    (∃ t, replay gen (TLB.new k ReplacementPolicy.FIFO seed) trace = some t ∧
      t.misses =
        toInt32 ((missLog gen (TLB.new k ReplacementPolicy.FIFO seed) trace).length : Int) ∧
      (trace.length < 2 ^ 31 →
        t.misses = (missLog gen (TLB.new k ReplacementPolicy.FIFO seed) trace).length) ∧
      t.entries = lastEntries k (missLog gen (TLB.new k ReplacementPolicy.FIFO seed) trace) ∧
      t.entries.length =
        min k (missLog gen (TLB.new k ReplacementPolicy.FIFO seed) trace).length) ∧
    (∀ a b c : α, a ≠ b → a ≠ c → b ≠ c →
      ∃ t, replay gen (TLB.new 2 ReplacementPolicy.FIFO seed) [a, b, c, a] = some t ∧
        t.misses = 4 ∧ t.hits = 0) := by
  constructor
  · obtain ⟨t, A, ht, hL, hA, hlen⟩ :=
      replay_fifo gen trace (TLB.new k ReplacementPolicy.FIFO seed) [] [] rfl hk rfl (Or.inl rfl)
        (Nat.zero_le _)
    rw [List.nil_append] at hL
    have hsz : (TLB.new k ReplacementPolicy.FIFO seed : TLB G α).size = k := rfl
    rw [hsz] at hA hlen
    obtain ⟨u, hu, _, _, _, _, hm, _⟩ :=
      replay_counters gen (TLB.new k ReplacementPolicy.FIFO seed) (wf_new _ _ _) hk
        (countersInt_new _ _ _) trace
    rw [ht] at hu
    injection hu with hu
    subst hu
    have hm0 : t.misses =
        toInt32 ((missLog gen (TLB.new k ReplacementPolicy.FIFO seed) trace).length : Int) := by
      rw [hm]
      show toInt32 (0 + _) = _
      rw [zero_add]
    refine ⟨t, ht, hm0, ?_, lastEntries_of_suffix k _ A t.entries hL hA hlen, ?_⟩
    · intro hlt
      have hle := missLog_length_le gen (TLB.new k ReplacementPolicy.FIFO seed) trace
      rw [hm0]
      exact toInt32_natCast _ (by omega)
    · rw [hL, List.length_append]
      rcases hA with h | h
      · subst h
        simp only [List.length_nil, Nat.zero_add]
        omega
      · omega
  · intro a b c hab hac hbc
    have hba : b ≠ a := Ne.symm hab
    have hca : c ≠ a := Ne.symm hac
    have hcb : c ≠ b := Ne.symm hbc
    simp [replay, access, TLB.new, hab, hac, hbc, hba, hca, hcb]
    decide

theorem fifo_insertion_order_witness :
    1 ≤ 2 ∧
    ((∃ t, replay listGen (TLB.new 2 ReplacementPolicy.FIFO []) ["A", "B", "A", "C", "A"]
        = some t ∧
      t.misses = toInt32 ((missLog listGen (TLB.new 2 ReplacementPolicy.FIFO [])
        ["A", "B", "A", "C", "A"]).length : Int) ∧
      (["A", "B", "A", "C", "A"].length < 2 ^ 31 →
        t.misses = ((missLog listGen (TLB.new 2 ReplacementPolicy.FIFO [])
          ["A", "B", "A", "C", "A"]).length : Int)) ∧
      t.entries = lastEntries 2 (missLog listGen (TLB.new 2 ReplacementPolicy.FIFO [])
        ["A", "B", "A", "C", "A"]) ∧
      t.entries.length = min 2 (missLog listGen (TLB.new 2 ReplacementPolicy.FIFO [])
        ["A", "B", "A", "C", "A"]).length) ∧
    (∀ a b c : String, a ≠ b → a ≠ c → b ≠ c →
      ∃ t, replay listGen (TLB.new 2 ReplacementPolicy.FIFO []) [a, b, c, a] = some t ∧
        t.misses = 4 ∧ t.hits = 0)) :=
  ⟨by decide, fifo_insertion_order listGen 2 [] ["A", "B", "A", "C", "A"] (by decide)⟩

end FIFOOrder

/-! ## FIFO against LRU -/

section Divergence

open TLB

variable {G α : Type} [DecidableEq α]

theorem replay_two (gen : G → Nat × G) (t t1 t2 : TLB G α) (a b : α)
    (h1 : access gen t a = some t1) (h2 : access gen t1 b = some t2) :
    replay gen t [a, b] = some t2 := by
  simp only [replay, h1, h2, Option.some_bind]

/-- From states that agree on capacity, residents and counters, a FIFO engine and an LRU
engine stay in agreement for as long as every access is a miss. -/
theorem replay_agree (gen : G → Nat × G) (xs : List α) :
    ∀ (tf tl : TLB G α), tf.policy = ReplacementPolicy.FIFO →
      tl.policy = ReplacementPolicy.LRU → tf.size = tl.size → tf.entries = tl.entries →
      tf.hits = tl.hits → tf.misses = tl.misses → WF tf → 1 ≤ tf.size →
      ∃ tf1 tl1, replay gen tf xs = some tf1 ∧ replay gen tl xs = some tl1 ∧
        ((missLog gen tf xs = xs ∨ missLog gen tl xs = xs) →
          tf1.entries = tl1.entries ∧ tf1.hits = tl1.hits ∧ tf1.misses = tl1.misses) := by
  induction xs with
  | nil =>
    intro tf tl _ _ _ he hh hm _ _
    exact ⟨tf, tl, rfl, rfl, fun _ => ⟨he, hh, hm⟩⟩
  | cons x xs ih =>
    intro tf tl hpf hpl hsz he hh hm hwf hk
    have hwfl : WF tl := by
      unfold WF at hwf ⊢
      rw [← he, ← hsz]; exact hwf
    have hkl : 1 ≤ tl.size := hsz ▸ hk
    obtain ⟨tf1, hf1, hwf1, hs1, hp1, hc1⟩ := access_step gen tf hwf hk x
    obtain ⟨tl1, hl1, hwl1, hsl1, hpl1, hcl1⟩ := access_step gen tl hwfl hkl x
    by_cases hx : x ∈ tf.entries
    · obtain ⟨tf2, hf2, _⟩ := replay_wf gen tf1 hwf1 (hs1 ▸ hk) xs
      obtain ⟨tl2, hl2, _⟩ := replay_wf gen tl1 hwl1 (hsl1 ▸ hkl) xs
      have hxl : x ∈ tl.entries := he ▸ hx
      refine ⟨tf2, tl2, ?_, ?_, ?_⟩
      · simp only [replay, hf1, Option.some_bind]; exact hf2
      · simp only [replay, hl1, Option.some_bind]; exact hl2
      · intro h
        exfalso
        rcases h with h | h
        · rw [missLog_cons_some gen tf tf1 x xs hf1, if_pos hx, List.nil_append] at h
          have h1 := missLog_length_le gen tf1 xs
          rw [h, List.length_cons] at h1
          omega
        · rw [missLog_cons_some gen tl tl1 x xs hl1, if_pos hxl, List.nil_append] at h
          have h1 := missLog_length_le gen tl1 xs
          rw [h, List.length_cons] at h1
          omega
    · have hxl : x ∉ tl.entries := he ▸ hx
      have hnr : tf.policy ≠ ReplacementPolicy.RANDOM := by rw [hpf]; decide
      have hnrl : tl.policy ≠ ReplacementPolicy.RANDOM := by rw [hpl]; decide
      have hagree : tf1.entries = tl1.entries ∧ tf1.hits = tf.hits ∧ tl1.hits = tl.hits ∧
          tf1.misses = tl1.misses := by
        by_cases hroom : tf.entries.length < tf.size
        · have hrooml : tl.entries.length < tl.size := by rw [← he, ← hsz]; exact hroom
          have e1 := access_miss_room gen tf x hx hroom
          have e2 := access_miss_room gen tl x hxl hrooml
          rw [e1] at hf1
          rw [e2] at hl1
          injection hf1 with hf1
          injection hl1 with hl1
          subst hf1 hl1
          exact ⟨by show tf.entries ++ [x] = tl.entries ++ [x]; rw [he], rfl, rfl,
            by show toInt32 (tf.misses + 1) = toInt32 (tl.misses + 1); rw [hm]⟩
        · have hrooml : ¬ tl.entries.length < tl.size := by rw [← he, ← hsz]; exact hroom
          obtain ⟨e, rest, hcons⟩ : ∃ e rest, tf.entries = e :: rest := by
            cases h : tf.entries with
            | nil => rw [h] at hroom; simp at hroom; omega
            | cons e rest => exact ⟨e, rest, rfl⟩
          have e1 := access_miss_front gen tf x e rest hx hroom hnr hcons
          have e2 := access_miss_front gen tl x e rest hxl hrooml hnrl (he ▸ hcons)
          rw [e1] at hf1
          rw [e2] at hl1
          injection hf1 with hf1
          injection hl1 with hl1
          subst hf1 hl1
          exact ⟨rfl, rfl, rfl,
            by show toInt32 (tf.misses + 1) = toInt32 (tl.misses + 1); rw [hm]⟩
      obtain ⟨hae, hah, hahl, ham⟩ := hagree
      obtain ⟨tf2, tl2, hf2, hl2, himp⟩ :=
        ih tf1 tl1 (hp1.trans hpf) (hpl1.trans hpl) (by rw [hs1, hsl1, hsz]) hae
          (by rw [hah, hahl, hh]) ham hwf1 (hs1 ▸ hk)
      refine ⟨tf2, tl2, ?_, ?_, ?_⟩
      · simp only [replay, hf1, Option.some_bind]; exact hf2
      · simp only [replay, hl1, Option.some_bind]; exact hl2
      · intro h
        apply himp
        rcases h with h | h
        · rw [missLog_cons_some gen tf tf1 x xs hf1, if_neg hx, List.singleton_append] at h
          exact Or.inl (List.tail_eq_of_cons_eq h)
        · rw [missLog_cons_some gen tl tl1 x xs hl1, if_neg hxl, List.singleton_append] at h
          exact Or.inr (List.tail_eq_of_cons_eq h)

/-- On a fresh engine replaying fewer than `2 ^ 32` accesses, a hit counter equal to 0 means
that every access was logged as a miss. -/
theorem missLog_eq_of_hits_zero (gen : G → Nat × G) (capacity : Nat)
    (policy : ReplacementPolicy) (seed : G) (xs : List α) (t : TLB G α) (hcap : 1 ≤ capacity)
    (hlen : xs.length < 2 ^ 32)
    (ht : replay gen (TLB.new capacity policy seed) xs = some t) (h0 : t.hits = 0) :
    missLog gen (TLB.new capacity policy seed) xs = xs := by
  obtain ⟨u, hu, _, _, _, _, _, hh⟩ :=
    replay_counters gen (TLB.new capacity policy seed) (wf_new _ _ _) hcap
      (countersInt_new _ _ _) xs
  rw [ht] at hu
  injection hu with hu
  subst hu
  have hle := missLog_length_le gen (TLB.new capacity policy seed) xs
  have hz : (TLB.new capacity policy seed : TLB G α).hits = 0 := rfl
  rw [hz, h0] at hh
  refine (missLog_sublist gen xs _).eq_of_length ?_
  unfold toInt32 at hh
  omega

/-- C8, FIFO and LRU agree absent hits: for every capacity of at least 1 and every trace,
after each prefix of the trace the FIFO engine and the LRU engine are both defined, and if
no access of the prefix was a hit (every access of the prefix is logged as a miss by one of
the engines; for a prefix of fewer than `2 ^ 32` accesses: the hit counter of either engine
is still 0) they have the same resident sequence and the same hit and miss counters.  In
particular this holds for the final states of a trace that produces no hit. -/
theorem fifo_lru_agree_absent_hits (gen : G → Nat × G) (capacity : Nat) (seedF seedL : G)
    (trace : List α) (hcap : 1 ≤ capacity) (n : Nat) :
    ∃ tf tl,
      replay gen (TLB.new capacity ReplacementPolicy.FIFO seedF) (trace.take n) = some tf ∧
      replay gen (TLB.new capacity ReplacementPolicy.LRU seedL) (trace.take n) = some tl ∧
      ((missLog gen (TLB.new capacity ReplacementPolicy.FIFO seedF) (trace.take n)
            = trace.take n ∨
          missLog gen (TLB.new capacity ReplacementPolicy.LRU seedL) (trace.take n)
            = trace.take n) →
        tf.entries = tl.entries ∧ tf.hits = tl.hits ∧ tf.misses = tl.misses) ∧
      (n < 2 ^ 32 → (tf.hits = 0 ∨ tl.hits = 0) →
        tf.entries = tl.entries ∧ tf.hits = tl.hits ∧ tf.misses = tl.misses) := by
  obtain ⟨tf, tl, hf, hl, himp⟩ :=
    replay_agree gen (trace.take n) (TLB.new capacity ReplacementPolicy.FIFO seedF)
      (TLB.new capacity ReplacementPolicy.LRU seedL) rfl rfl rfl rfl rfl rfl
      (wf_new capacity ReplacementPolicy.FIFO seedF) hcap
  refine ⟨tf, tl, hf, hl, himp, fun hn h => himp ?_⟩
  have hlen : (trace.take n).length < 2 ^ 32 :=
    lt_of_le_of_lt (List.length_take_le n trace) hn
  rcases h with h | h
  · exact Or.inl (missLog_eq_of_hits_zero gen capacity _ seedF _ tf hcap hlen hf h)
  · exact Or.inr (missLog_eq_of_hits_zero gen capacity _ seedL _ tl hcap hlen hl h)

theorem fifo_lru_agree_absent_hits_witness :
    1 ≤ 2 ∧ ∃ tf tl,
      replay listGen (TLB.new 2 ReplacementPolicy.FIFO [1]) (["A", "B", "C", "A"].take 4)
        = some tf ∧
      replay listGen (TLB.new 2 ReplacementPolicy.LRU [2]) (["A", "B", "C", "A"].take 4)
        = some tl ∧
      ((missLog listGen (TLB.new 2 ReplacementPolicy.FIFO [1]) (["A", "B", "C", "A"].take 4)
            = ["A", "B", "C", "A"].take 4 ∨
          missLog listGen (TLB.new 2 ReplacementPolicy.LRU [2]) (["A", "B", "C", "A"].take 4)
            = ["A", "B", "C", "A"].take 4) →
        tf.entries = tl.entries ∧ tf.hits = tl.hits ∧ tf.misses = tl.misses) ∧
      (4 < 2 ^ 32 → (tf.hits = 0 ∨ tl.hits = 0) →
        tf.entries = tl.entries ∧ tf.hits = tl.hits ∧ tf.misses = tl.misses) :=
  ⟨by decide,
    fifo_lru_agree_absent_hits listGen 2 [1] [2] ["A", "B", "C", "A"] (by decide) 4⟩

end Divergence

/-! ## `reset` -/

section Reset

open TLB

variable {G α : Type} [DecidableEq α]

/-- Under FIFO and LRU one access does not read or write the generator. -/
theorem access_rng (gen : G → Nat × G) (t : TLB G α) (hwf : WF t) (hk : 1 ≤ t.size)
    (hpol : t.policy ≠ ReplacementPolicy.RANDOM) (r : G) (p : α) :
    ∃ t1, access gen t p = some t1 ∧ access gen { t with rng := r } p = some { t1 with rng := r } ∧
      WF t1 ∧ t1.size = t.size ∧ t1.policy = t.policy := by
  obtain ⟨t1, h1, hwf1, hs1, hp1, _⟩ := access_step gen t hwf hk p
  refine ⟨t1, h1, ?_, hwf1, hs1, hp1⟩
  by_cases hp : p ∈ t.entries
  · by_cases hl : t.policy = ReplacementPolicy.LRU
    · have e1 := access_hit_lru gen t p hp hl hwf.1
      have e2 := access_hit_lru gen { t with rng := r } p hp hl hwf.1
      rw [e1] at h1
      injection h1 with h1
      subst h1
      exact e2
    · have e1 := access_hit_keep gen t p hp hl
      have e2 := access_hit_keep gen { t with rng := r } p hp hl
      rw [e1] at h1
      injection h1 with h1
      subst h1
      exact e2
  · by_cases hroom : t.entries.length < t.size
    · have e1 := access_miss_room gen t p hp hroom
      have e2 := access_miss_room gen { t with rng := r } p hp hroom
      rw [e1] at h1
      injection h1 with h1
      subst h1
      exact e2
    · obtain ⟨e, rest, hcons⟩ : ∃ e rest, t.entries = e :: rest := by
        cases h : t.entries with
        | nil => rw [h] at hroom; simp at hroom; omega
        | cons e rest => exact ⟨e, rest, rfl⟩
      have e1 := access_miss_front gen t p e rest hp hroom hpol hcons
      have e2 := access_miss_front gen { t with rng := r } p e rest hp hroom hpol hcons
      rw [e1] at h1
      injection h1 with h1
      subst h1
      exact e2

/-- Under FIFO and LRU a replay does not read or write the generator. -/
theorem replay_rng (gen : G → Nat × G) (xs : List α) :
    ∀ (t : TLB G α), WF t → 1 ≤ t.size → t.policy ≠ ReplacementPolicy.RANDOM → ∀ r : G,
      ∃ t1, replay gen t xs = some t1 ∧
        replay gen { t with rng := r } xs = some { t1 with rng := r } := by
  induction xs with
  | nil => intro t _ _ _ r; exact ⟨t, rfl, rfl⟩
  | cons x xs ih =>
    intro t hwf hk hpol r
    obtain ⟨t1, h1, h2, hwf1, hs1, hp1⟩ := access_rng gen t hwf hk hpol r x
    obtain ⟨t2, h3, h4⟩ := ih t1 hwf1 (hs1 ▸ hk) (hp1 ▸ hpol) r
    refine ⟨t2, ?_, ?_⟩
    · simp only [replay, h1, Option.some_bind]; exact h3
    · simp only [replay, h2, Option.some_bind]; exact h4

/-- C9, reset then replay equals fresh: for every capacity of at least 1, every policy and
all traces `t0` and `t`, the engine that replayed `t0` is defined; after `reset()` its
replay of `t` is defined and ends in exactly the state (residents, hits, misses) reached by
a freshly constructed engine of the same capacity and policy whose generator is in the same
state (the same victim choices); under FIFO and LRU the residents, hits and misses are
those of a fresh engine with any seed. -/
theorem reset_replay_eq_fresh (gen : G → Nat × G) (capacity : Nat)
    (policy : ReplacementPolicy) (seed : G) (t0 t : List α) (hcap : 1 ≤ capacity) :
    ∃ s0 r, replay gen (TLB.new capacity policy seed) t0 = some s0 ∧
      replay gen (reset s0) t = some r ∧
      replay gen (TLB.new capacity policy s0.rng) t = some r ∧
      (policy ≠ ReplacementPolicy.RANDOM → ∀ seed1 : G,
        ∃ r1, replay gen (TLB.new capacity policy seed1) t = some r1 ∧
          r1.entries = r.entries ∧ r1.hits = r.hits ∧ r1.misses = r.misses) := by
  obtain ⟨s0, h0, _, hs0, hp0⟩ :=
    replay_wf gen (TLB.new capacity policy seed) (wf_new capacity policy seed) hcap t0
  have hs : s0.size = capacity := hs0
  have hp : s0.policy = policy := hp0
  have hreset : reset s0 = TLB.new capacity policy s0.rng := by
    simp only [reset, TLB.new, hs, hp]
  obtain ⟨r, hr, _⟩ :=
    replay_wf gen (TLB.new capacity policy s0.rng) (wf_new capacity policy s0.rng) hcap t
  refine ⟨s0, r, h0, by rw [hreset]; exact hr, hr, ?_⟩
  intro hpol seed1
  obtain ⟨r2, h2, h3⟩ :=
    replay_rng gen t (TLB.new capacity policy s0.rng) (wf_new capacity policy s0.rng) hcap
      hpol seed1
  rw [hr] at h2
  injection h2 with h2
  subst h2
  exact ⟨_, h3, rfl, rfl, rfl⟩

theorem reset_replay_eq_fresh_witness :
    1 ≤ 2 ∧
    ∃ s0 r, replay listGen (TLB.new 2 ReplacementPolicy.RANDOM [4, 1, 3, 5]) ["A", "B", "C", "D"]
        = some s0 ∧
      replay listGen (reset s0) ["B", "C", "A", "B"] = some r ∧
      replay listGen (TLB.new 2 ReplacementPolicy.RANDOM s0.rng) ["B", "C", "A", "B"] = some r ∧
      (ReplacementPolicy.RANDOM ≠ ReplacementPolicy.RANDOM → ∀ seed1 : List Nat,
        ∃ r1, replay listGen (TLB.new 2 ReplacementPolicy.RANDOM seed1) ["B", "C", "A", "B"]
            = some r1 ∧
          r1.entries = r.entries ∧ r1.hits = r.hits ∧ r1.misses = r.misses) :=
  ⟨by decide,
    reset_replay_eq_fresh listGen 2 ReplacementPolicy.RANDOM [4, 1, 3, 5] ["A", "B", "C", "D"]
      ["B", "C", "A", "B"] (by decide)⟩

/-- C10, postcondition and frame of `reset()`: for every engine state, after `reset()` the
resident sequence is empty and both counters are 0, while the capacity `size`, the policy
and the generator state are what they were before the call; calling `reset()` twice gives
the same state as calling it once. -/
theorem reset_postcondition {G β : Type} (t : TLB G β) :
    (reset t).entries = [] ∧ (reset t).hits = 0 ∧ (reset t).misses = 0 ∧
      (reset t).size = t.size ∧ (reset t).policy = t.policy ∧ (reset t).rng = t.rng ∧
      reset (reset t) = reset t :=
  ⟨rfl, rfl, rfl, rfl, rfl, rfl, rfl⟩

end Reset

/-! ## Capacity 0 and the miss rate after zero accesses -/

section Degenerate

open TLB

variable {G α : Type} [DecidableEq α]

theorem getMissRate_new {G β : Type} (capacity : Nat) (policy : ReplacementPolicy) (seed : G) :
    (TLB.new capacity policy seed : TLB G β).getMissRate = none := by
  simp [TLB.getMissRate, TLB.new, cppDivide, toInt32_zero]

theorem access_capacity_zero (gen : G → Nat × G) (policy : ReplacementPolicy) (seed : G)
    (page : α) : access gen (TLB.new 0 policy seed) page = none := by
  cases policy <;> simp [access, TLB.new, uniformInt, sizeMinusOne, SIZE_WIDTH]

theorem simulateTLB_capacity_zero (gen : G → Nat × G) (seeds : ReplacementPolicy → G)
    (referenceString : List α) : simulateTLB gen seeds referenceString 0 = none := by
  cases referenceString with
  | nil =>
    simp only [simulateTLB, policies, policyNames, List.zip_cons_cons, simulateLoop, replay,
      Option.some_bind, getMissRate_new, Option.none_bind]
  | cons page rest =>
    simp only [simulateTLB, policies, policyNames, List.zip_cons_cons, simulateLoop, replay,
      access_capacity_zero, Option.none_bind]

theorem simulateTLB_nil (gen : G → Nat × G) (seeds : ReplacementPolicy → G) (tlbSize : Nat) :
    simulateTLB gen seeds ([] : List α) tlbSize = none := by
  simp only [simulateTLB, policies, policyNames, List.zip_cons_cons, simulateLoop, replay,
    Option.some_bind, getMissRate_new, Option.none_bind]

/-- C11, capacity 0 is not rejected by the code: the constructor `TLB(0, policy)` yields an
engine (size 0, no resident page, both counters 0), every `access` on it is undefined
(`pop_front` or `erase` on the empty deque), and `main` run with three arguments and a
capacity that parses to 0 never takes the usage-error exit: whatever the trace file holds, the
run executes an undefined operation.  Instance: the trace file with the single line `A`. -/
theorem capacity_zero_not_rejected (gen : G → Nat × G) (seeds : ReplacementPolicy → G)
    (policy : ReplacementPolicy) (seed : G) :
    ((TLB.new 0 policy seed : TLB G α).size = 0 ∧
      (TLB.new 0 policy seed : TLB G α).entries = [] ∧
      (TLB.new 0 policy seed : TLB G α).hits = 0 ∧
      (TLB.new 0 policy seed : TLB G α).misses = 0) ∧
    (∀ page : α, access gen (TLB.new 0 policy seed) page = none) ∧
    (∀ fileLines : List α,
      main gen seeds 3 (some 0) fileLines = MainOutcome.undefinedBehaviour) ∧
    main listGen (fun _ => []) 3 (some 0) ["A"] = MainOutcome.undefinedBehaviour := by
  refine ⟨⟨rfl, rfl, rfl, rfl⟩, fun page => access_capacity_zero gen policy seed page, ?_, ?_⟩
  · intro fileLines
    have h : ((0 : Int) % (2 ^ SIZE_WIDTH : Int)).toNat = 0 := by simp
    simp only [main, h, simulateTLB_capacity_zero]
    simp
  · decide

/-- C12, the miss rate after zero accesses: on an engine that has performed no access
(freshly constructed, just reset, or after the replay of an empty trace) `getMissRate()`
evaluates its division with the divisor `hits + misses` equal to 0 and has no defined
value; `simulateTLB` on an empty reference string and `main` on an empty trace file
therefore execute an undefined operation.  Instance: an empty trace file, capacity 4. -/
theorem miss_rate_zero_access_undefined (gen : G → Nat × G) (seeds : ReplacementPolicy → G)
    (capacity : Nat) (policy : ReplacementPolicy) (seed : G) (t : TLB G α) :
    ((TLB.new capacity policy seed : TLB G α).hits +
      (TLB.new capacity policy seed : TLB G α).misses = 0) ∧
    (TLB.new capacity policy seed : TLB G α).getMissRate = none ∧
    (reset t).getMissRate = none ∧
    (∃ t1, replay gen (TLB.new capacity policy seed : TLB G α) [] = some t1 ∧
      t1.getMissRate = none) ∧
    simulateTLB gen seeds ([] : List α) capacity = none ∧
    main listGen (fun _ => []) 3 (some 4) ([] : List String)
      = MainOutcome.undefinedBehaviour := by
  refine ⟨rfl, getMissRate_new capacity policy seed, ?_,
    ⟨_, rfl, getMissRate_new capacity policy seed⟩, simulateTLB_nil gen seeds capacity, ?_⟩
  · simp [TLB.getMissRate, reset, cppDivide, toInt32_zero]
  · decide

end Degenerate

/-! ## The miss rate of a non-empty replay -/

section MissRate

open TLB

variable {G α : Type} [DecidableEq α]

/-- Rounding a ratio of `[0, 1]` to binary64 moves it by at most `2 ^ (-53)` and keeps it
in `[0, 1]`; multiplying the result by 100 gives a value of `[0, 100]`. -/
theorem round_ratio (q : ℚ) (h0 : 0 ≤ q) (h1 : q ≤ 1) :
    ∃ rate percent, roundBinary64 q = some rate ∧ |rate - q| ≤ 2 ^ (-53 : Int) ∧
      0 ≤ rate ∧ rate ≤ 1 ∧ cppMultiply rate 100 = some percent ∧
      0 ≤ percent ∧ percent ≤ 100 := by
  obtain ⟨rate, hr, hr0, hr1⟩ := roundBinary64_bounds q 1 h0 (by simpa using h1) (by norm_num)
  have hr1q : rate ≤ 1 := by simpa using hr1
  obtain ⟨percent, hp, hp0, hp1⟩ :=
    roundBinary64_bounds (rate * 100) 100 (by positivity)
      (by push_cast; linarith) (by norm_num)
  have hclose : |rate - q| ≤ 2 ^ (-53 : Int) := by
    by_cases hq : q = 0
    · subst hq
      have : roundBinary64 0 = some 0 := by simp [roundBinary64]
      rw [this] at hr
      injection hr with hr
      subst hr
      norm_num
    · obtain ⟨r2, hr2, hc⟩ := roundBinary64_close q (lt_of_le_of_ne h0 (Ne.symm hq)) h1
      rw [hr] at hr2
      injection hr2 with hr2
      subst hr2
      exact hc
  exact ⟨rate, percent, hr, hclose, hr0, hr1q, hp, hp0, by simpa using hp1⟩

theorem getMissRate_replay (gen : G → Nat × G) (capacity : Nat) (policy : ReplacementPolicy)
    (seed : G) (trace : List α) (hcap : 1 ≤ capacity) (hne : trace ≠ [])
    (hlen : trace.length < 2 ^ 31) :
    ∃ t rate percent, replay gen (TLB.new capacity policy seed) trace = some t ∧
      t.hits + t.misses = trace.length ∧ 0 ≤ t.misses ∧ t.misses ≤ trace.length ∧
      t.getMissRate = some rate ∧
      roundBinary64 ((t.misses : ℚ) / (trace.length : ℚ)) = some rate ∧
      |rate - (t.misses : ℚ) / (trace.length : ℚ)| ≤ 2 ^ (-53 : Int) ∧
      0 ≤ rate ∧ rate ≤ 1 ∧ cppMultiply rate 100 = some percent ∧
      0 ≤ percent ∧ percent ≤ 100 := by
  obtain ⟨t, ht, _, _, _, hm, hh, hle⟩ :=
    replay_counts gen capacity policy seed trace hcap hlen
  have hsum : t.hits + t.misses = trace.length := by omega
  have hm0 : 0 ≤ t.misses := by omega
  have hmN : t.misses ≤ trace.length := by omega
  have hpos : 0 < trace.length := List.length_pos.2 hne
  have hposq : (0 : ℚ) < (trace.length : ℚ) := by exact_mod_cast hpos
  have hmq : (0 : ℚ) ≤ (t.misses : ℚ) := by exact_mod_cast hm0
  have hleq : (t.misses : ℚ) ≤ (trace.length : ℚ) := by exact_mod_cast hmN
  obtain ⟨rate, percent, hr, hclose, hr0, hr1, hp, hp0, hp1⟩ :=
    round_ratio ((t.misses : ℚ) / (trace.length : ℚ)) (div_nonneg hmq (le_of_lt hposq))
      ((div_le_one hposq).2 hleq)
  refine ⟨t, rate, percent, ht, hsum, hm0, hmN, ?_, hr, hclose, hr0, hr1, hp, hp0, hp1⟩
  have hdiv : toInt32 (t.hits + t.misses) = (trace.length : Int) := by
    rw [hsum]
    exact toInt32_natCast _ hlen
  have hcast : ((toInt32 (t.hits + t.misses) : Int) : ℚ) = (trace.length : ℚ) := by
    rw [hdiv]; simp
  simp only [TLB.getMissRate, cppDivide, hcast, if_neg (ne_of_gt hposq), hr]

/-- C13 as stated fails, in two ways.  At capacity 2 under FIFO the trace `A, B, A` gives
2 misses and 1 hit, and `getMissRate()` is the binary64 number
`6004799503160661 / 2 ^ 53`, which is not the exact ratio `2 / 3`.  At capacity 1 under
FIFO the trace `A, A, ..., A` of `2 ^ 31 + 1` accesses leaves `hits = -2 ^ 31` and
`misses = 1`, and `getMissRate()` is negative. -/
theorem miss_rate_value_counterexample :
    (∃ t, replay listGen (TLB.new 2 ReplacementPolicy.FIFO []) ["A", "B", "A"] = some t ∧
      t.misses = 2 ∧ t.hits = 1 ∧
      t.getMissRate = some (6004799503160661 / 9007199254740992) ∧
      t.getMissRate ≠ some ((t.misses : ℚ) / ((t.hits + t.misses : Int) : ℚ))) ∧
    (∃ t rate, replay listGen (TLB.new 1 ReplacementPolicy.FIFO [])
        (List.replicate (2 ^ 31 + 1) "A") = some t ∧
      t.hits = -2147483648 ∧ t.misses = 1 ∧ t.getMissRate = some rate ∧ rate < 0) := by
  constructor
  · have hrun : replay listGen (TLB.new 2 ReplacementPolicy.FIFO []) ["A", "B", "A"] =
        some { size := 2, policy := ReplacementPolicy.FIFO, entries := ["A", "B"], rng := [],
               hits := 1, misses := 2 } := by
      decide
    have h3 : toInt32 (1 + 2) = 3 := by decide
    have hrate :
        ({ size := 2, policy := ReplacementPolicy.FIFO, entries := ["A", "B"], rng := [],
           hits := 1, misses := 2 } : TLB (List Nat) String).getMissRate
          = some (6004799503160661 / 9007199254740992) := by
      have hne : ¬ ((3 : ℚ) = 0) := by norm_num
      simp only [TLB.getMissRate, cppDivide, h3, Int.cast_ofNat, if_neg hne]
      exact roundBinary64_two_thirds
    refine ⟨_, hrun, rfl, rfl, hrate, ?_⟩
    rw [hrate]
    intro h
    injection h with h
    norm_num at h
  · have hrun := replay_replicate listGen 1 ReplacementPolicy.FIFO [] "A" (by decide) (2 ^ 31)
    have hh : toInt32 ((2 ^ 31 : Nat) : Int) = -2147483648 := by decide
    rw [hh] at hrun
    have hd : toInt32 (-2147483648 + 1) = -2147483647 := by decide
    obtain ⟨rate, hr, hneg⟩ :=
      roundBinary64_neg ((1 : ℚ) / (-2147483647)) (by norm_num) (by norm_num) (by norm_num)
    refine ⟨_, rate, hrun, rfl, rfl, ?_, hneg⟩
    have hne : ¬ ((-2147483647 : ℚ) = 0) := by norm_num
    simp only [TLB.getMissRate, cppDivide, hd, Int.cast_neg, Int.cast_ofNat, Int.cast_one,
      if_neg hne]
    exact hr

/-- C13, miss-rate value, with the rounding of `double` and for the traces on which the
`int` counters do not overflow: for every policy, every capacity of at least 1 and every
non-empty trace of length `N < 2 ^ 31` replayed on a fresh engine, `getMissRate()` is
defined and is the ratio `misses / (hits + misses) = misses / N` rounded to binary64, within
`2 ^ (-53)` of the ratio and between 0 and 1; and `simulateTLB` is defined and reports, for
FIFO, LRU and RANDOM in this order, the binary64 product of that engine's rate and 100, a
percentage between 0 and 100. -/
theorem miss_rate_value (gen : G → Nat × G) (seeds : ReplacementPolicy → G) (capacity : Nat)
    (policy : ReplacementPolicy) (seed : G) (trace : List α) (hcap : 1 ≤ capacity)
    (hne : trace ≠ []) (hlen : trace.length < 2 ^ 31) :
    (∃ t rate, replay gen (TLB.new capacity policy seed) trace = some t ∧
      t.hits + t.misses = trace.length ∧
      t.getMissRate = some rate ∧
      roundBinary64 ((t.misses : ℚ) / ((t.hits + t.misses : Int) : ℚ)) = some rate ∧
      roundBinary64 ((t.misses : ℚ) / (trace.length : ℚ)) = some rate ∧
      |rate - (t.misses : ℚ) / (trace.length : ℚ)| ≤ 2 ^ (-53 : Int) ∧
      0 ≤ rate ∧ rate ≤ 1) ∧
    (∃ tF tL tR rateF rateL rateR pctF pctL pctR,
      replay gen (TLB.new capacity ReplacementPolicy.FIFO (seeds ReplacementPolicy.FIFO)) trace
        = some tF ∧ tF.getMissRate = some rateF ∧ cppMultiply rateF 100 = some pctF ∧
      replay gen (TLB.new capacity ReplacementPolicy.LRU (seeds ReplacementPolicy.LRU)) trace
        = some tL ∧ tL.getMissRate = some rateL ∧ cppMultiply rateL 100 = some pctL ∧
      replay gen (TLB.new capacity ReplacementPolicy.RANDOM (seeds ReplacementPolicy.RANDOM))
        trace = some tR ∧ tR.getMissRate = some rateR ∧ cppMultiply rateR 100 = some pctR ∧
      simulateTLB gen seeds trace capacity
        = some [("FIFO", pctF), ("LRU", pctL), ("RANDOM", pctR)] ∧
      (0 ≤ pctF ∧ pctF ≤ 100) ∧ (0 ≤ pctL ∧ pctL ≤ 100) ∧ (0 ≤ pctR ∧ pctR ≤ 100)) := by
  constructor
  · obtain ⟨t, rate, _, ht, hsum, _, _, hg, hr, hclose, hr0, hr1, _⟩ :=
      getMissRate_replay gen capacity policy seed trace hcap hne hlen
    refine ⟨t, rate, ht, hsum, hg, ?_, hr, hclose, hr0, hr1⟩
    rw [hsum]
    simpa using hr
  · obtain ⟨t1, r1, p1, ht1, _, _, _, hg1, _, _, _, _, hp1, ha1, hb1⟩ :=
      getMissRate_replay gen capacity ReplacementPolicy.FIFO (seeds ReplacementPolicy.FIFO)
        trace hcap hne hlen
    obtain ⟨t2, r2, p2, ht2, _, _, _, hg2, _, _, _, _, hp2, ha2, hb2⟩ :=
      getMissRate_replay gen capacity ReplacementPolicy.LRU (seeds ReplacementPolicy.LRU)
        trace hcap hne hlen
    obtain ⟨t3, r3, p3, ht3, _, _, _, hg3, _, _, _, _, hp3, ha3, hb3⟩ :=
      getMissRate_replay gen capacity ReplacementPolicy.RANDOM (seeds ReplacementPolicy.RANDOM)
        trace hcap hne hlen
    refine ⟨t1, t2, t3, r1, r2, r3, p1, p2, p3, ht1, hg1, hp1, ht2, hg2, hp2, ht3, hg3, hp3,
      ?_, ⟨ha1, hb1⟩, ⟨ha2, hb2⟩, ⟨ha3, hb3⟩⟩
    simp only [simulateTLB, policies, policyNames, List.zip_cons_cons, List.zip_nil_right,
      simulateLoop, ht1, ht2, ht3, hg1, hg2, hg3, hp1, hp2, hp3, Option.some_bind,
      Option.map_some']

theorem miss_rate_value_witness :
    1 ≤ 2 ∧ ["A", "B", "A", "C"] ≠ [] ∧ ["A", "B", "A", "C"].length < 2 ^ 31 ∧
    ((∃ t rate, replay listGen (TLB.new 2 ReplacementPolicy.LRU []) ["A", "B", "A", "C"]
        = some t ∧
      t.hits + t.misses = (["A", "B", "A", "C"].length : Int) ∧
      t.getMissRate = some rate ∧
      roundBinary64 ((t.misses : ℚ) / ((t.hits + t.misses : Int) : ℚ)) = some rate ∧
      roundBinary64 ((t.misses : ℚ) / (["A", "B", "A", "C"].length : ℚ)) = some rate ∧
      |rate - (t.misses : ℚ) / (["A", "B", "A", "C"].length : ℚ)| ≤ 2 ^ (-53 : Int) ∧
      0 ≤ rate ∧ rate ≤ 1) ∧
    (∃ tF tL tR rateF rateL rateR pctF pctL pctR,
      replay listGen (TLB.new 2 ReplacementPolicy.FIFO [3, 1]) ["A", "B", "A", "C"]
        = some tF ∧ tF.getMissRate = some rateF ∧ cppMultiply rateF 100 = some pctF ∧
      replay listGen (TLB.new 2 ReplacementPolicy.LRU [3, 1]) ["A", "B", "A", "C"]
        = some tL ∧ tL.getMissRate = some rateL ∧ cppMultiply rateL 100 = some pctL ∧
      replay listGen (TLB.new 2 ReplacementPolicy.RANDOM [3, 1]) ["A", "B", "A", "C"]
        = some tR ∧ tR.getMissRate = some rateR ∧ cppMultiply rateR 100 = some pctR ∧
      simulateTLB listGen (fun _ => [3, 1]) ["A", "B", "A", "C"] 2
        = some [("FIFO", pctF), ("LRU", pctL), ("RANDOM", pctR)] ∧
      (0 ≤ pctF ∧ pctF ≤ 100) ∧ (0 ≤ pctL ∧ pctL ≤ 100) ∧ (0 ≤ pctR ∧ pctR ≤ 100))) :=
  ⟨by decide, by decide, by decide,
    miss_rate_value listGen (fun _ => [3, 1]) 2 ReplacementPolicy.LRU [] ["A", "B", "A", "C"]
      (by decide) (by decide) (by decide)⟩

end MissRate

/-! ## FIFO and LRU do not depend on the generator -/

section Determinism

open TLB

variable {G1 G2 α : Type} [DecidableEq α]

theorem access_indep (gen1 : G1 → Nat × G1) (gen2 : G2 → Nat × G2) (t1 : TLB G1 α)
    (t2 : TLB G2 α) (hs : t1.size = t2.size) (hp : t1.policy = t2.policy)
    (he : t1.entries = t2.entries) (hh : t1.hits = t2.hits) (hm : t1.misses = t2.misses)
    (hpol : t1.policy ≠ ReplacementPolicy.RANDOM) (hwf : WF t1) (hk : 1 ≤ t1.size) (p : α) :
    ∃ u1 u2, access gen1 t1 p = some u1 ∧ access gen2 t2 p = some u2 ∧
      u1.size = u2.size ∧ u1.policy = u2.policy ∧ u1.entries = u2.entries ∧
      u1.hits = u2.hits ∧ u1.misses = u2.misses ∧ WF u1 ∧ u1.size = t1.size ∧
      u1.policy = t1.policy := by
  obtain ⟨u1, h1, hwf1, hs1, hp1, _⟩ := access_step gen1 t1 hwf hk p
  have hpol2 : t2.policy ≠ ReplacementPolicy.RANDOM := hp ▸ hpol
  by_cases hx : p ∈ t1.entries
  · have hx2 : p ∈ t2.entries := he ▸ hx
    by_cases hl : t1.policy = ReplacementPolicy.LRU
    · have e1 := access_hit_lru gen1 t1 p hx hl hwf.1
      have e2 := access_hit_lru gen2 t2 p hx2 (hp ▸ hl) (he ▸ hwf.1)
      rw [e1] at h1
      injection h1 with h1
      subst h1
      exact ⟨_, _, e1, e2, hs, hp, by show t1.entries.erase p ++ [p] = t2.entries.erase p ++ [p]; rw [he],
        by show toInt32 (t1.hits + 1) = toInt32 (t2.hits + 1); rw [hh], hm, hwf1, rfl, rfl⟩
    · have e1 := access_hit_keep gen1 t1 p hx hl
      have e2 := access_hit_keep gen2 t2 p hx2 (hp ▸ hl)
      rw [e1] at h1
      injection h1 with h1
      subst h1
      exact ⟨_, _, e1, e2, hs, hp, he, by show toInt32 (t1.hits + 1) = toInt32 (t2.hits + 1); rw [hh], hm, hwf1,
        rfl, rfl⟩
  · have hx2 : p ∉ t2.entries := he ▸ hx
    by_cases hroom : t1.entries.length < t1.size
    · have e1 := access_miss_room gen1 t1 p hx hroom
      have e2 := access_miss_room gen2 t2 p hx2 (by rw [← he, ← hs]; exact hroom)
      rw [e1] at h1
      injection h1 with h1
      subst h1
      exact ⟨_, _, e1, e2, hs, hp, by show t1.entries ++ [p] = t2.entries ++ [p]; rw [he], hh,
        by show toInt32 (t1.misses + 1) = toInt32 (t2.misses + 1); rw [hm], hwf1, rfl, rfl⟩
    · obtain ⟨e, rest, hcons⟩ : ∃ e rest, t1.entries = e :: rest := by
        cases h : t1.entries with
        | nil => rw [h] at hroom; simp at hroom; omega
        | cons e rest => exact ⟨e, rest, rfl⟩
      have e1 := access_miss_front gen1 t1 p e rest hx hroom hpol hcons
      have e2 := access_miss_front gen2 t2 p e rest hx2 (by rw [← he, ← hs]; exact hroom) hpol2
        (he ▸ hcons)
      rw [e1] at h1
      injection h1 with h1
      subst h1
      exact ⟨_, _, e1, e2, hs, hp, rfl, hh, by show toInt32 (t1.misses + 1) = toInt32 (t2.misses + 1); rw [hm],
        hwf1, rfl, rfl⟩

theorem replay_indep (gen1 : G1 → Nat × G1) (gen2 : G2 → Nat × G2) (xs : List α) :
    ∀ (t1 : TLB G1 α) (t2 : TLB G2 α), t1.size = t2.size → t1.policy = t2.policy →
      t1.entries = t2.entries → t1.hits = t2.hits → t1.misses = t2.misses →
      t1.policy ≠ ReplacementPolicy.RANDOM → WF t1 → 1 ≤ t1.size →
      ∃ u1 u2, replay gen1 t1 xs = some u1 ∧ replay gen2 t2 xs = some u2 ∧
        u1.entries = u2.entries ∧ u1.hits = u2.hits ∧ u1.misses = u2.misses := by
  induction xs with
  | nil =>
    intro t1 t2 _ _ he hh hm _ _ _
    exact ⟨t1, t2, rfl, rfl, he, hh, hm⟩
  | cons x xs ih =>
    intro t1 t2 hs hp he hh hm hpol hwf hk
    obtain ⟨u1, u2, h1, h2, hs1, hp1, he1, hh1, hm1, hwf1, hsz1, hpl1⟩ :=
      access_indep gen1 gen2 t1 t2 hs hp he hh hm hpol hwf hk x
    obtain ⟨v1, v2, h3, h4, hres⟩ :=
      ih u1 u2 hs1 hp1 he1 hh1 hm1 (hpl1 ▸ hpol) hwf1 (hsz1 ▸ hk)
    refine ⟨v1, v2, ?_, ?_, hres⟩
    · simp only [replay, h1, Option.some_bind]; exact h3
    · simp only [replay, h2, Option.some_bind]; exact h4

/-- C14, FIFO and LRU determinism: for a fixed trace and a capacity of at least 1, two runs
of a FIFO engine, and likewise two runs of an LRU engine, are both defined and end with the
same resident sequence, hit count and miss count, whatever the generators of the two runs
are and whatever seeds they were given. -/
theorem fifo_lru_determinism (gen1 : G1 → Nat × G1) (gen2 : G2 → Nat × G2) (capacity : Nat)
    (policy : ReplacementPolicy) (seed1 : G1) (seed2 : G2) (trace : List α)
    (hcap : 1 ≤ capacity)
    (hpol : policy = ReplacementPolicy.FIFO ∨ policy = ReplacementPolicy.LRU) :
    ∃ t1 t2, replay gen1 (TLB.new capacity policy seed1) trace = some t1 ∧
      replay gen2 (TLB.new capacity policy seed2) trace = some t2 ∧
      t1.entries = t2.entries ∧ t1.hits = t2.hits ∧ t1.misses = t2.misses := by
  have hnr : policy ≠ ReplacementPolicy.RANDOM := by
    rcases hpol with h | h <;> rw [h] <;> decide
  exact replay_indep gen1 gen2 trace (TLB.new capacity policy seed1)
    (TLB.new capacity policy seed2) rfl rfl rfl rfl rfl hnr (wf_new capacity policy seed1) hcap

theorem fifo_lru_determinism_witness :
    1 ≤ 2 ∧ (ReplacementPolicy.LRU = ReplacementPolicy.FIFO ∨
      ReplacementPolicy.LRU = ReplacementPolicy.LRU) ∧
    ∃ t1 t2, replay listGen (TLB.new 2 ReplacementPolicy.LRU [7, 8]) ["A", "B", "A", "C", "A"]
        = some t1 ∧
      replay (fun n : Nat => (n, n + 1)) (TLB.new 2 ReplacementPolicy.LRU 5)
        ["A", "B", "A", "C", "A"] = some t2 ∧
      t1.entries = t2.entries ∧ t1.hits = t2.hits ∧ t1.misses = t2.misses :=
  ⟨by decide, by decide,
    fifo_lru_determinism listGen (fun n : Nat => (n, n + 1)) 2 ReplacementPolicy.LRU [7, 8] 5
      ["A", "B", "A", "C", "A"] (by decide) (by decide)⟩

end Determinism

/-! ## The hit path and the miss path of one access -/

section Paths

open TLB

variable {G α : Type} [DecidableEq α]

/-- C15 as stated fails: on the state with resident sequence `A`, `hits = 2147483647` (the
largest `int`) and `misses = 1`, reached by `2 ^ 31` accesses of `A`, the access of `A` is a
hit and leaves `hits = -2147483648`, not `hits + 1`. -/
theorem hit_path_counterexample :
    ["A"].Nodup ∧ "A" ∈ ["A"] ∧
    ∃ t1, access listGen
        ({ size := 1, policy := ReplacementPolicy.FIFO, entries := ["A"], rng := [],
           hits := 2147483647, misses := 1 } : TLB (List Nat) String) "A" = some t1 ∧
      t1.hits = -2147483648 ∧ t1.hits ≠ 2147483647 + 1 := by
  decide

/-- C15, hit path, with the range of the `int` counter: for every engine state whose
resident sequence has no duplicates and contains `page`, `access(page)` is defined,
increments `hits` by 1 when `hits` is an `int` below the largest one (in general `hits`
becomes `hits + 1` modulo `2 ^ 32`), leaves `misses`, the capacity and the policy
unchanged, and keeps the same set of resident pages and the same number of them.  Under FIFO and RANDOM the resident sequence is unchanged; under LRU the new
sequence is the old one with `page` removed (the other entries in their order) followed by
`page`. -/
theorem hit_path (gen : G → Nat × G) (t : TLB G α) (page : α) (hn : t.entries.Nodup)
    (hp : page ∈ t.entries) :
    ∃ t1, access gen t page = some t1 ∧ t1.hits = toInt32 (t.hits + 1) ∧
      (-2 ^ 31 ≤ t.hits → t.hits < 2 ^ 31 - 1 → t1.hits = t.hits + 1) ∧
      t1.misses = t.misses ∧ t1.size = t.size ∧ t1.policy = t.policy ∧
      (∀ q, q ∈ t1.entries ↔ q ∈ t.entries) ∧ t1.entries.length = t.entries.length ∧
      (t.policy ≠ ReplacementPolicy.LRU → t1.entries = t.entries) ∧
      (t.policy = ReplacementPolicy.LRU →
        t1.entries = t.entries.filter (fun e => decide (e ≠ page)) ++ [page]) := by
  have hexact : -2 ^ 31 ≤ t.hits → t.hits < 2 ^ 31 - 1 → toInt32 (t.hits + 1) = t.hits + 1 :=
    fun h1 h2 => toInt32_of_range _ (by omega) (by omega)
  by_cases hl : t.policy = ReplacementPolicy.LRU
  · have hf : t.entries.filter (fun e => decide (e ≠ page)) = t.entries.erase page := by
      rw [hn.erase_eq_filter page]
      congr 1
      funext e
      by_cases h : e = page <;> simp [h]
    refine ⟨_, access_hit_lru gen t page hp hl hn, rfl, hexact, rfl, rfl, rfl, ?_, ?_,
      fun h => absurd hl h, fun _ => ?_⟩
    · intro q
      show q ∈ t.entries.erase page ++ [page] ↔ q ∈ t.entries
      simp only [List.mem_append, List.mem_singleton]
      constructor
      · rintro (h | h)
        · exact List.mem_of_mem_erase h
        · exact h ▸ hp
      · intro h
        by_cases hq : q = page
        · exact Or.inr hq
        · exact Or.inl ((List.mem_erase_of_ne hq).2 h)
    · show (t.entries.erase page ++ [page]).length = t.entries.length
      have h1 := List.length_erase_of_mem hp
      have h2 := List.length_pos_of_mem hp
      simp only [List.length_append, List.length_singleton, h1]
      omega
    · show t.entries.erase page ++ [page] = _
      rw [hf]
  · exact ⟨_, access_hit_keep gen t page hp hl, rfl, hexact, rfl, rfl, rfl, fun _ => Iff.rfl,
      rfl, fun _ => rfl, fun h => absurd h hl⟩

theorem hit_path_witness :
    ["B", "A", "C"].Nodup ∧ "A" ∈ ["B", "A", "C"] ∧
    ∃ t1, access listGen
        ({ size := 3, policy := ReplacementPolicy.LRU, entries := ["B", "A", "C"], rng := [],
           hits := 4, misses := 6 } : TLB (List Nat) String) "A" = some t1 ∧
      t1.hits = toInt32 (4 + 1) ∧ (-2 ^ 31 ≤ (4 : Int) → (4 : Int) < 2 ^ 31 - 1 → t1.hits = 4 + 1) ∧
      t1.misses = 6 ∧ t1.size = 3 ∧ t1.policy = ReplacementPolicy.LRU ∧
      (∀ q, q ∈ t1.entries ↔ q ∈ ["B", "A", "C"]) ∧
      t1.entries.length = ["B", "A", "C"].length ∧
      (ReplacementPolicy.LRU ≠ ReplacementPolicy.LRU → t1.entries = ["B", "A", "C"]) ∧
      (ReplacementPolicy.LRU = ReplacementPolicy.LRU →
        t1.entries = ["B", "A", "C"].filter (fun e => decide (e ≠ "A")) ++ ["A"]) :=
  ⟨by decide, by decide,
    hit_path listGen
      ({ size := 3, policy := ReplacementPolicy.LRU, entries := ["B", "A", "C"], rng := [],
         hits := 4, misses := 6 } : TLB (List Nat) String) "A" (by decide) (by decide)⟩

/-- C16 as stated fails: on the full state of capacity 1 with resident sequence `B`,
`hits = 0` and `misses = 2147483647` (the largest `int`), the access of `A` is a miss and
leaves `misses = -2147483648`, not `misses + 1`. -/
theorem miss_path_counterexample :
    1 ≤ 1 ∧ ["B"].length ≤ 1 ∧ "A" ∉ ["B"] ∧
    ∃ t1, access listGen
        ({ size := 1, policy := ReplacementPolicy.FIFO, entries := ["B"], rng := [],
           hits := 0, misses := 2147483647 } : TLB (List Nat) String) "A" = some t1 ∧
      t1.misses = -2147483648 ∧ t1.misses ≠ 2147483647 + 1 := by
  decide

/-- C16, miss path, with the range of the `int` counter: for every engine state of capacity
at least 1 with at most `size` resident entries, none of them `page`, `access(page)` is
defined, increments `misses` by 1 when `misses` is an `int` below the largest one (in
general `misses` becomes `misses + 1` modulo `2 ^ 32`) and leaves `hits` unchanged.  With room (`entries.size() < size`) the new sequence is the
old one followed by `page`.  On a full engine the new sequence has again `size` entries and
is the old one without one entry, the others in their order, followed by `page`: the
front entry is the one removed under FIFO and LRU, the entry at some position
`victim ≤ size - 1` under RANDOM. -/
theorem miss_path (gen : G → Nat × G) (t : TLB G α) (page : α) (hk : 1 ≤ t.size)
    (hlen : t.entries.length ≤ t.size) (hp : page ∉ t.entries) :
    ∃ t1, access gen t page = some t1 ∧ t1.misses = toInt32 (t.misses + 1) ∧
      (-2 ^ 31 ≤ t.misses → t.misses < 2 ^ 31 - 1 → t1.misses = t.misses + 1) ∧
      t1.hits = t.hits ∧ t1.size = t.size ∧ t1.policy = t.policy ∧
      (t.entries.length < t.size → t1.entries = t.entries ++ [page]) ∧
      (t.entries.length = t.size →
        t1.entries.length = t.size ∧
        (t.policy ≠ ReplacementPolicy.RANDOM →
          ∃ front rest, t.entries = front :: rest ∧ t1.entries = rest ++ [page]) ∧
        (t.policy = ReplacementPolicy.RANDOM →
          ∃ victim, victim ≤ t.size - 1 ∧ victim < t.entries.length ∧
            t1.entries = t.entries.eraseIdx victim ++ [page])) := by
  have hexact : -2 ^ 31 ≤ t.misses → t.misses < 2 ^ 31 - 1 →
      toInt32 (t.misses + 1) = t.misses + 1 :=
    fun h1 h2 => toInt32_of_range _ (by omega) (by omega)
  by_cases hroom : t.entries.length < t.size
  · exact ⟨_, access_miss_room gen t page hp hroom, rfl, hexact, rfl, rfl, rfl, fun _ => rfl,
      fun h => absurd hroom (by omega)⟩
  · have hfull : t.entries.length = t.size := by omega
    have hpos : 1 ≤ t.entries.length := by omega
    by_cases hpol : t.policy = ReplacementPolicy.RANDOM
    · have hv := victim_lt t.entries.length (gen t.rng).1 hpos
      refine ⟨_, access_miss_random gen t page hp hroom hpol hpos, rfl, hexact, rfl, rfl, rfl,
        fun h => absurd h hroom, fun _ => ⟨?_, fun h => absurd hpol h, fun _ => ⟨_, ?_, hv, rfl⟩⟩⟩
      · show (t.entries.eraseIdx _ ++ [page]).length = t.size
        have h1 := List.length_eraseIdx_of_lt hv
        simp only [List.length_append, List.length_singleton, h1]
        omega
      · omega
    · obtain ⟨e, rest, hcons⟩ : ∃ e rest, t.entries = e :: rest := by
        cases h : t.entries with
        | nil => rw [h] at hpos; simp at hpos
        | cons e rest => exact ⟨e, rest, rfl⟩
      refine ⟨_, access_miss_front gen t page e rest hp hroom hpol hcons, rfl, hexact, rfl, rfl,
        rfl, fun h => absurd h hroom, fun _ => ⟨?_, fun _ => ⟨e, rest, hcons, rfl⟩,
          fun h => absurd h hpol⟩⟩
      show (rest ++ [page]).length = t.size
      have h1 : t.entries.length = rest.length + 1 := by rw [hcons]; rfl
      simp only [List.length_append, List.length_singleton]
      omega

theorem miss_path_witness :
    1 ≤ 3 ∧ ["B", "A", "C"].length ≤ 3 ∧ "D" ∉ ["B", "A", "C"] ∧
    ∃ t1, access listGen
        ({ size := 3, policy := ReplacementPolicy.RANDOM, entries := ["B", "A", "C"],
           rng := [7], hits := 4, misses := 6 } : TLB (List Nat) String) "D" = some t1 ∧
      t1.misses = toInt32 (6 + 1) ∧
      (-2 ^ 31 ≤ (6 : Int) → (6 : Int) < 2 ^ 31 - 1 → t1.misses = 6 + 1) ∧
      t1.hits = 4 ∧ t1.size = 3 ∧
      t1.policy = ReplacementPolicy.RANDOM ∧
      (["B", "A", "C"].length < 3 → t1.entries = ["B", "A", "C"] ++ ["D"]) ∧
      (["B", "A", "C"].length = 3 →
        t1.entries.length = 3 ∧
        (ReplacementPolicy.RANDOM ≠ ReplacementPolicy.RANDOM →
          ∃ front rest, ["B", "A", "C"] = front :: rest ∧ t1.entries = rest ++ ["D"]) ∧
        (ReplacementPolicy.RANDOM = ReplacementPolicy.RANDOM →
          ∃ victim, victim ≤ 3 - 1 ∧ victim < ["B", "A", "C"].length ∧
            t1.entries = ["B", "A", "C"].eraseIdx victim ++ ["D"])) :=
  ⟨by decide, by decide, by decide,
    miss_path listGen
      ({ size := 3, policy := ReplacementPolicy.RANDOM, entries := ["B", "A", "C"],
         rng := [7], hits := 4, misses := 6 } : TLB (List Nat) String) "D" (by decide)
      (by decide) (by decide)⟩

end Paths

/-! ## Occupancy and miss counts of a replay -/

section Occupancy

open TLB

variable {G α : Type} [DecidableEq α]

/-- What one access does to the resident set of a well-formed state. -/
theorem access_entries (gen : G → Nat × G) (t : TLB G α) (hwf : WF t) (hk : 1 ≤ t.size)
    (p : α) :
    ∃ t1, access gen t p = some t1 ∧ WF t1 ∧ t1.size = t.size ∧ t1.policy = t.policy ∧
      ((p ∈ t.entries ∧ t1.hits = toInt32 (t.hits + 1) ∧ t1.misses = t.misses) ∨
       (p ∉ t.entries ∧ t1.hits = t.hits ∧ t1.misses = toInt32 (t.misses + 1))) ∧
      (∀ q, q ∈ t1.entries → q ∈ t.entries ∨ q = p) ∧ p ∈ t1.entries ∧
      (p ∈ t.entries → (∀ q, q ∈ t.entries → q ∈ t1.entries) ∧
        t1.entries.length = t.entries.length) ∧
      (p ∉ t.entries → t.entries.length < t.size →
        (∀ q, q ∈ t.entries → q ∈ t1.entries) ∧ t1.entries.length = t.entries.length + 1) ∧
      (p ∉ t.entries → ¬ t.entries.length < t.size →
        t1.entries.length = t.entries.length) := by
  obtain ⟨t1, h1, hwf1, hs1, hp1, hc1⟩ := access_step gen t hwf hk p
  refine ⟨t1, h1, hwf1, hs1, hp1, hc1, ?_⟩
  by_cases hx : p ∈ t.entries
  · by_cases hl : t.policy = ReplacementPolicy.LRU
    · have e1 := access_hit_lru gen t p hx hl hwf.1
      rw [e1] at h1
      injection h1 with h1
      subst h1
      have hlen : (t.entries.erase p ++ [p]).length = t.entries.length := by
        have h1 := List.length_erase_of_mem hx
        have h2 := List.length_pos_of_mem hx
        simp only [List.length_append, List.length_singleton, h1]
        omega
      refine ⟨?_, ?_, fun _ => ⟨?_, hlen⟩, fun h => absurd hx h, fun h => absurd hx h⟩
      · intro q hq
        rcases List.mem_append.1 hq with h | h
        · exact Or.inl (List.mem_of_mem_erase h)
        · exact Or.inr (List.mem_singleton.1 h)
      · exact List.mem_append_right _ (List.mem_singleton_self p)
      · intro q hq
        by_cases hqp : q = p
        · exact List.mem_append_right _ (List.mem_singleton.2 hqp)
        · exact List.mem_append_left _ ((List.mem_erase_of_ne hqp).2 hq)
    · have e1 := access_hit_keep gen t p hx hl
      rw [e1] at h1
      injection h1 with h1
      subst h1
      exact ⟨fun q hq => Or.inl hq, hx, fun _ => ⟨fun q hq => hq, rfl⟩, fun h => absurd hx h,
        fun h => absurd hx h⟩
  · by_cases hroom : t.entries.length < t.size
    · have e1 := access_miss_room gen t p hx hroom
      rw [e1] at h1
      injection h1 with h1
      subst h1
      refine ⟨?_, List.mem_append_right _ (List.mem_singleton_self p), fun h => absurd h hx,
        fun _ _ => ⟨fun q hq => List.mem_append_left _ hq, ?_⟩, fun _ h => absurd hroom h⟩
      · intro q hq
        rcases List.mem_append.1 hq with h | h
        · exact Or.inl h
        · exact Or.inr (List.mem_singleton.1 h)
      · show (t.entries ++ [p]).length = t.entries.length + 1
        simp only [List.length_append, List.length_singleton]
    · have hpos : 1 ≤ t.entries.length := by omega
      by_cases hpol : t.policy = ReplacementPolicy.RANDOM
      · have e1 := access_miss_random gen t p hx hroom hpol hpos
        have hv := victim_lt t.entries.length (gen t.rng).1 hpos
        rw [e1] at h1
        injection h1 with h1
        subst h1
        refine ⟨?_, List.mem_append_right _ (List.mem_singleton_self p), fun h => absurd h hx,
          fun _ h => absurd h hroom, fun _ _ => ?_⟩
        · intro q hq
          rcases List.mem_append.1 hq with h | h
          · exact Or.inl ((List.eraseIdx_sublist _ _).subset h)
          · exact Or.inr (List.mem_singleton.1 h)
        · show (t.entries.eraseIdx _ ++ [p]).length = t.entries.length
          have h1 := List.length_eraseIdx_of_lt hv
          simp only [List.length_append, List.length_singleton, h1]
          omega
      · obtain ⟨e, rest, hcons⟩ : ∃ e rest, t.entries = e :: rest := by
          cases h : t.entries with
          | nil => rw [h] at hpos; simp at hpos
          | cons e rest => exact ⟨e, rest, rfl⟩
        have e1 := access_miss_front gen t p e rest hx hroom hpol hcons
        rw [e1] at h1
        injection h1 with h1
        subst h1
        refine ⟨?_, List.mem_append_right _ (List.mem_singleton_self p), fun h => absurd h hx,
          fun _ h => absurd h hroom, fun _ _ => ?_⟩
        · intro q hq
          rcases List.mem_append.1 hq with h | h
          · exact Or.inl (hcons ▸ List.mem_cons_of_mem _ h)
          · exact Or.inr (List.mem_singleton.1 h)
        · show (rest ++ [p]).length = t.entries.length
          rw [hcons]
          simp only [List.length_append, List.length_cons, List.length_nil]

/-- The state after a replay from a fresh engine: the residents are pages of the trace, the
engine is full or still holds every page seen, and every distinct page has missed. -/
theorem replay_occupancy (gen : G → Nat × G) (k : Nat) (policy : ReplacementPolicy) (seed : G)
    (hk : 1 ≤ k) (xs : List α) :
    ∃ t, replay gen (TLB.new k policy seed) xs = some t ∧ WF t ∧ t.size = k ∧
      (∀ q, q ∈ t.entries → q ∈ xs) ∧
      (t.entries.length = k ∨ ∀ q, q ∈ xs → q ∈ t.entries) ∧
      xs.dedup.length ≤ (missLog gen (TLB.new k policy seed) xs).length := by
  induction xs using List.reverseRecOn with
  | nil =>
    refine ⟨TLB.new k policy seed, rfl, wf_new k policy seed, rfl, ?_, Or.inr ?_, ?_⟩
    · intro q hq; exact absurd hq (List.not_mem_nil q)
    · intro q hq; exact absurd hq (List.not_mem_nil q)
    · simp
  | append_singleton xs p ih =>
    obtain ⟨t, ht, hwf, hs, hsub, hfull, hmiss⟩ := ih
    obtain ⟨t1, h1, hwf1, hs1, _, hc1, hin, hpin, hhit, hroom, hevict⟩ :=
      access_entries gen t hwf (hs ▸ hk) p
    have hsn := dedup_length_snoc xs p
    refine ⟨t1, by rw [replay_snoc, ht]; exact h1, hwf1, hs1.trans hs, ?_, ?_, ?_⟩
    · intro q hq
      rcases hin q hq with h | h
      · exact List.mem_append_left _ (hsub q h)
      · exact List.mem_append_right _ (List.mem_singleton.2 h)
    · by_cases hx : p ∈ t.entries
      · obtain ⟨hkeep, hlen⟩ := hhit hx
        rcases hfull with h | h
        · exact Or.inl (by rw [hlen]; exact h)
        · right
          intro q hq
          rcases List.mem_append.1 hq with hq1 | hq1
          · exact hkeep q (h q hq1)
          · exact (List.mem_singleton.1 hq1) ▸ hpin
      · by_cases hr : t.entries.length < t.size
        · obtain ⟨hkeep, _⟩ := hroom hx hr
          rcases hfull with h | h
          · omega
          · right
            intro q hq
            rcases List.mem_append.1 hq with hq1 | hq1
            · exact hkeep q (h q hq1)
            · exact (List.mem_singleton.1 hq1) ▸ hpin
        · left
          have h2 := hevict hx hr
          have h3 := hwf.2
          omega
    · rw [missLog_snoc gen xs p _ t ht, List.length_append]
      by_cases hpx : p ∈ xs
      · rw [if_pos hpx] at hsn
        rw [hsn]
        omega
      · rw [if_neg hpx] at hsn
        have hx : p ∉ t.entries := fun h => hpx (hsub p h)
        rw [hsn, if_neg hx, List.length_singleton]
        omega

theorem occupancy_eq_min (k : Nat) (xs es : List α) (hn : es.Nodup) (hlen : es.length ≤ k)
    (hsub : ∀ q, q ∈ es → q ∈ xs) (hfull : es.length = k ∨ ∀ q, q ∈ xs → q ∈ es) :
    es.length = min k xs.dedup.length := by
  have h1 : es.length ≤ xs.dedup.length := by
    have h0 : es.dedup.length ≤ xs.dedup.length :=
      dedup_length_le_of_subset (fun q hq => hsub q hq)
    rwa [hn.dedup] at h0
  rcases hfull with h | h
  · omega
  · have h2 : xs.dedup.length ≤ es.length := by
      have h0 : xs.dedup.length ≤ es.dedup.length :=
        dedup_length_le_of_subset (fun q hq => h q hq)
      rwa [hn.dedup] at h0
    omega

theorem sizeMinusOne_eq (n : Nat) (h1 : 1 ≤ n) (h2 : n ≤ 2 ^ SIZE_WIDTH) :
    sizeMinusOne n = n - 1 := by
  unfold sizeMinusOne
  have h : n + 2 ^ SIZE_WIDTH - 1 = (n - 1) + 2 ^ SIZE_WIDTH := by
    have : 0 < 2 ^ SIZE_WIDTH := Nat.two_pow_pos _
    omega
  rw [h, Nat.add_mod_right]
  exact Nat.mod_eq_of_lt (by omega)

/-- C17, eviction is well defined: for every capacity of at least 1 (a `size_t` value),
every policy and every state reached by a replay from a fresh engine, whenever `access`
takes the eviction branch (the page is not resident and `entries.size() < size` is false)
the resident sequence is non-empty, the unsigned `entries.size() - 1` is the true
difference (no wrap-around), every value drawn from `[0, entries.size() - 1]` is a position
of the deque, and the access is defined. -/
theorem eviction_well_defined (gen : G → Nat × G) (capacity : Nat)
    (policy : ReplacementPolicy) (seed : G) (trace : List α) (page : α)
    (hcap : 1 ≤ capacity) (hsz : capacity < 2 ^ SIZE_WIDTH) :
    ∃ t, replay gen (TLB.new capacity policy seed) trace = some t ∧
      (page ∉ t.entries → ¬ t.entries.length < t.size →
        t.entries ≠ [] ∧ 1 ≤ t.entries.length ∧
        sizeMinusOne t.entries.length = t.entries.length - 1 ∧
        (∀ raw, uniformInt 0 (sizeMinusOne t.entries.length) raw ≤ t.entries.length - 1 ∧
          uniformInt 0 (sizeMinusOne t.entries.length) raw < t.entries.length) ∧
        ∃ t1, access gen t page = some t1) := by
  obtain ⟨t, ht, hwf, hs, _⟩ :=
    replay_wf gen (TLB.new capacity policy seed) (wf_new capacity policy seed) hcap trace
  have hs1 : t.size = capacity := hs
  refine ⟨t, ht, fun _ hfull => ?_⟩
  have hlen := hwf.2
  have hpos : 1 ≤ t.entries.length := by omega
  have heq := sizeMinusOne_eq t.entries.length hpos (by omega)
  obtain ⟨t1, h1, _⟩ := access_step gen t hwf (by omega) page
  refine ⟨?_, hpos, heq, fun raw => ⟨?_, victim_lt _ raw hpos⟩, t1, h1⟩
  · intro h
    rw [h] at hpos
    simp at hpos
  · have := uniformInt_zero_le (sizeMinusOne t.entries.length) raw
    omega

theorem eviction_well_defined_witness :
    1 ≤ 2 ∧ 2 < 2 ^ SIZE_WIDTH ∧
    ∃ t, replay listGen (TLB.new 2 ReplacementPolicy.RANDOM [9, 4]) ["A", "B"] = some t ∧
      ("C" ∉ t.entries → ¬ t.entries.length < t.size →
        t.entries ≠ [] ∧ 1 ≤ t.entries.length ∧
        sizeMinusOne t.entries.length = t.entries.length - 1 ∧
        (∀ raw, uniformInt 0 (sizeMinusOne t.entries.length) raw ≤ t.entries.length - 1 ∧
          uniformInt 0 (sizeMinusOne t.entries.length) raw < t.entries.length) ∧
        ∃ t1, access listGen t "C" = some t1) :=
  ⟨by decide, by decide,
    eviction_well_defined listGen 2 ReplacementPolicy.RANDOM [9, 4] ["A", "B"] "C" (by decide)
      (by decide)⟩

/-- C18, exact occupancy: for every capacity `k` of at least 1, every policy and every trace
replayed on a fresh engine, the number of resident entries is `min k d`, with `d` the number
of distinct pages of the trace; and one more access, of any page, never lowers the number
of resident entries and leaves it at `k` once it is `k`. -/
theorem exact_occupancy (gen : G → Nat × G) (k : Nat) (policy : ReplacementPolicy) (seed : G)
    (trace : List α) (hk : 1 ≤ k) :
    ∃ t, replay gen (TLB.new k policy seed) trace = some t ∧
      t.entries.length = min k trace.dedup.length ∧
      ∀ page, ∃ t1, access gen t page = some t1 ∧
        replay gen (TLB.new k policy seed) (trace ++ [page]) = some t1 ∧
        t1.entries.length = min k (trace ++ [page]).dedup.length ∧
        t.entries.length ≤ t1.entries.length ∧
        (t.entries.length = k → t1.entries.length = k) := by
  obtain ⟨t, ht, hwf, hs, hsub, hfull, _⟩ := replay_occupancy gen k policy seed hk trace
  have hocc := occupancy_eq_min k trace t.entries hwf.1 (hs ▸ hwf.2) hsub hfull
  refine ⟨t, ht, hocc, fun page => ?_⟩
  obtain ⟨t1, ht1, hwf1, hs1, hsub1, hfull1, _⟩ :=
    replay_occupancy gen k policy seed hk (trace ++ [page])
  have hocc1 := occupancy_eq_min k (trace ++ [page]) t1.entries hwf1.1 (hs1 ▸ hwf1.2) hsub1 hfull1
  have hacc : access gen t page = some t1 := by
    rw [replay_snoc, ht] at ht1
    exact ht1
  have hmono : trace.dedup.length ≤ (trace ++ [page]).dedup.length :=
    dedup_length_le_of_subset (List.subset_append_left _ _)
  refine ⟨t1, hacc, ht1, hocc1, ?_, ?_⟩
  · rw [hocc, hocc1]; omega
  · intro h
    rw [hocc1]
    rw [hocc] at h
    omega

theorem exact_occupancy_witness :
    1 ≤ 2 ∧
    ∃ t, replay listGen (TLB.new 2 ReplacementPolicy.RANDOM [5]) ["A", "B", "A", "C"] = some t ∧
      t.entries.length = min 2 ["A", "B", "A", "C"].dedup.length ∧
      ∀ page, ∃ t1, access listGen t page = some t1 ∧
        replay listGen (TLB.new 2 ReplacementPolicy.RANDOM [5]) (["A", "B", "A", "C"] ++ [page])
          = some t1 ∧
        t1.entries.length = min 2 (["A", "B", "A", "C"] ++ [page]).dedup.length ∧
        t.entries.length ≤ t1.entries.length ∧
        (t.entries.length = 2 → t1.entries.length = 2) :=
  ⟨by decide,
    exact_occupancy listGen 2 ReplacementPolicy.RANDOM [5] ["A", "B", "A", "C"] (by decide)⟩

/-- Capacity 1, FIFO or LRU, on the trace `a, b, a, b, ...`: every access misses. -/
theorem replay_alternating_one (gen : G → Nat × G) (policy : ReplacementPolicy) (seed : G)
    (a b : α) (hab : a ≠ b) (hpol : policy ≠ ReplacementPolicy.RANDOM) (n : Nat)
    (hn : 1 ≤ n) :
    replay gen (TLB.new 1 policy seed) (alternating a b n) =
      some { size := 1, policy := policy, entries := [b], rng := seed, hits := 0,
             misses := toInt32 (2 * (n : Int)) } := by
  have hba : b ≠ a := Ne.symm hab
  induction n, hn using Nat.le_induction with
  | base =>
    have hx : a ∉ (TLB.new 1 policy seed : TLB G α).entries := List.not_mem_nil a
    have h1 := access_miss_room gen (TLB.new 1 policy seed) a hx (by show 0 < 1; omega)
    have h2 := access_miss_front gen
      ({ size := 1, policy := policy, entries := [a], rng := seed, hits := 0,
         misses := toInt32 (0 + 1) } : TLB G α) b a []
      (by show b ∉ [a]; simpa using hba) (by show ¬ [a].length < 1; simp) hpol rfl
    have h := replay_two gen _ _ _ a b h1 h2
    have hm : toInt32 (toInt32 (0 + 1) + 1) = toInt32 (2 * ((1 : Nat) : Int)) := by decide
    rw [← hm]
    exact h
  | succ n hn ih =>
    have h1 := access_miss_front gen
      ({ size := 1, policy := policy, entries := [b], rng := seed, hits := 0,
         misses := toInt32 (2 * (n : Int)) } : TLB G α) a b []
      (by show a ∉ [b]; simpa using hab) (by show ¬ [b].length < 1; simp) hpol rfl
    have h2 := access_miss_front gen
      ({ size := 1, policy := policy, entries := [a], rng := seed, hits := 0,
         misses := toInt32 (toInt32 (2 * (n : Int)) + 1) } : TLB G α) b a []
      (by show b ∉ [a]; simpa using hba) (by show ¬ [a].length < 1; simp) hpol rfl
    have h := replay_two gen _ _ _ a b h1 h2
    have hm : toInt32 (toInt32 (toInt32 (2 * (n : Int)) + 1) + 1)
        = toInt32 (2 * ((n + 1 : Nat) : Int)) := by
      unfold toInt32
      omega
    rw [← hm]
    show replay gen _ (alternating a b n ++ [a, b]) = _
    rw [replay_append, ih, Option.some_bind]
    exact h

/-- Capacity 2 under LRU on the trace `a, b, a, b, ...`: two misses, then hits only. -/
theorem replay_alternating_two (gen : G → Nat × G) (seed : G) (a b : α) (hab : a ≠ b)
    (n : Nat) (hn : 1 ≤ n) :
    replay gen (TLB.new 2 ReplacementPolicy.LRU seed) (alternating a b n) =
      some { size := 2, policy := ReplacementPolicy.LRU, entries := [a, b], rng := seed,
             hits := toInt32 (2 * (n : Int) - 2), misses := 2 } := by
  have hba : b ≠ a := Ne.symm hab
  induction n, hn using Nat.le_induction with
  | base =>
    have hx : a ∉ (TLB.new 2 ReplacementPolicy.LRU seed : TLB G α).entries :=
      List.not_mem_nil a
    have h1 := access_miss_room gen (TLB.new 2 ReplacementPolicy.LRU seed) a hx
      (by show 0 < 2; omega)
    have h2 := access_miss_room gen
      ({ size := 2, policy := ReplacementPolicy.LRU, entries := [a], rng := seed, hits := 0,
         misses := toInt32 (0 + 1) } : TLB G α) b
      (by show b ∉ [a]; simpa using hba) (by show [a].length < 2; simp)
    have h := replay_two gen _ _ _ a b h1 h2
    have hm : toInt32 (toInt32 (0 + 1) + 1) = 2 := by decide
    have hh : toInt32 (2 * ((1 : Nat) : Int) - 2) = 0 := by decide
    rw [hh, ← hm]
    exact h
  | succ n hn ih =>
    have h1 := access_hit_lru gen
      ({ size := 2, policy := ReplacementPolicy.LRU, entries := [a, b], rng := seed,
         hits := toInt32 (2 * (n : Int) - 2), misses := 2 } : TLB G α) a
      (by show a ∈ [a, b]; simp) rfl (by show [a, b].Nodup; simpa using hab)
    have he1 : [a, b].erase a ++ [a] = [b, a] := by simp
    have h2 := access_hit_lru gen
      ({ size := 2, policy := ReplacementPolicy.LRU, entries := [a, b].erase a ++ [a],
         rng := seed, hits := toInt32 (toInt32 (2 * (n : Int) - 2) + 1),
         misses := 2 } : TLB G α) b
      (by show b ∈ [a, b].erase a ++ [a]; rw [he1]; simp)
      rfl (by show ([a, b].erase a ++ [a]).Nodup; rw [he1]; simpa using hba)
    have he2 : ([a, b].erase a ++ [a]).erase b ++ [b] = [a, b] := by
      rw [he1]; simp
    have h := replay_two gen _ _ _ a b h1 h2
    have hm : toInt32 (toInt32 (toInt32 (2 * (n : Int) - 2) + 1) + 1)
        = toInt32 (2 * ((n + 1 : Nat) : Int) - 2) := by
      unfold toInt32
      omega
    rw [← hm, ← he2]
    show replay gen _ (alternating a b n ++ [a, b]) = _
    rw [replay_append, ih, Option.some_bind]
    exact h

end Occupancy

/-! ## LRU inclusion -/

section Inclusion

open TLB

variable {G α : Type} [DecidableEq α]

theorem lastEntries_subset {β : Type} (k k2 : Nat) (l : List β) (h : k ≤ k2) (q : β)
    (hq : q ∈ lastEntries k l) : q ∈ lastEntries k2 l := by
  unfold lastEntries at hq ⊢
  exact List.drop_subset_drop_left l (by omega) hq

/-- After any trace the residents of the smaller LRU engine are residents of the larger. -/
theorem lru_subset (gen : G → Nat × G) (k k2 : Nat) (seed seed2 : G) (hk : 1 ≤ k)
    (hkk : k ≤ k2) (xs : List α) :
    ∃ t t2, replay gen (TLB.new k ReplacementPolicy.LRU seed) xs = some t ∧
      replay gen (TLB.new k2 ReplacementPolicy.LRU seed2) xs = some t2 ∧
      ∀ q, q ∈ t.entries → q ∈ t2.entries := by
  obtain ⟨t, A, ht, _, _, hL, hA, hlen⟩ := replay_lru gen k seed hk xs
  obtain ⟨t2, A2, ht2, _, _, hL2, hA2, hlen2⟩ := replay_lru gen k2 seed2 (by omega) xs
  refine ⟨t, t2, ht, ht2, fun q hq => ?_⟩
  rw [lastEntries_of_suffix k _ A t.entries hL hA hlen] at hq
  rw [lastEntries_of_suffix k2 _ A2 t2.entries hL2 hA2 hlen2]
  exact lastEntries_subset k k2 _ hkk q hq

/-- The accesses that miss in the larger LRU engine are at most as many as those that miss
in the smaller one. -/
theorem lru_misses_le (gen : G → Nat × G) (k k2 : Nat) (seed seed2 : G) (hk : 1 ≤ k)
    (hkk : k ≤ k2) (xs : List α) :
    (missLog gen (TLB.new k2 ReplacementPolicy.LRU seed2) xs).length ≤
      (missLog gen (TLB.new k ReplacementPolicy.LRU seed) xs).length := by
  induction xs using List.reverseRecOn with
  | nil => exact le_refl _
  | append_singleton xs p ih =>
    obtain ⟨t, t2, ht, ht2, hsub⟩ := lru_subset gen k k2 seed seed2 hk hkk xs
    rw [missLog_snoc gen xs p _ t ht, missLog_snoc gen xs p _ t2 ht2, List.length_append,
      List.length_append]
    by_cases hx : p ∈ t.entries
    · rw [if_pos hx, if_pos (hsub p hx)]
      simpa using ih
    · rw [if_neg hx]
      by_cases hx2 : p ∈ t2.entries
      · rw [if_pos hx2]
        simp only [List.length_nil, List.length_singleton]
        omega
      · rw [if_neg hx2]
        simp only [List.length_singleton]
        omega

/-- C19 as stated fails in its miss-count half: under LRU, after the `2 ^ 31` accesses of
the trace `A, B, A, B, ...` the engine of capacity 1 has `misses = -2 ^ 31` (the counter
wrapped around) and the engine of capacity 2 has `misses = 2`. -/
theorem lru_inclusion_counterexample :
    (1 ≤ 1 ∧ 1 ≤ 2) ∧
    ∃ t t2, replay listGen (TLB.new 1 ReplacementPolicy.LRU []) (alternating "A" "B" (2 ^ 30))
        = some t ∧
      replay listGen (TLB.new 2 ReplacementPolicy.LRU []) (alternating "A" "B" (2 ^ 30))
        = some t2 ∧
      t.misses = -2147483648 ∧ t2.misses = 2 ∧ ¬ (t2.misses ≤ t.misses) := by
  have h1 := replay_alternating_one listGen ReplacementPolicy.LRU [] "A" "B" (by decide)
    (by decide) (2 ^ 30) (by decide)
  have h2 := replay_alternating_two listGen [] "A" "B" (by decide) (2 ^ 30) (by decide)
  have hm : toInt32 (2 * ((2 ^ 30 : Nat) : Int)) = -2147483648 := by decide
  rw [hm] at h1
  exact ⟨by decide, _, _, h1, h2, rfl, rfl, by decide⟩

/-- C19, LRU inclusion: for all capacities `1 ≤ k ≤ k2` and every trace, after every prefix
of the trace both LRU engines are defined and every page resident in the engine of capacity
`k` is resident in the engine of capacity `k2`; hence the accesses of the trace that miss
with capacity `k2` are at most as many as those that miss with capacity `k`, and for a
trace of fewer than `2 ^ 31` accesses, on which the `int` counters do not overflow, the
engine of capacity `k2` ends with at most as many `misses` as the engine of capacity
`k`. -/
theorem lru_inclusion (gen : G → Nat × G) (k k2 : Nat) (seed seed2 : G) (trace : List α)
    (hk : 1 ≤ k) (hkk : k ≤ k2) :
    (∀ n, ∃ t t2,
      replay gen (TLB.new k ReplacementPolicy.LRU seed) (trace.take n) = some t ∧
      replay gen (TLB.new k2 ReplacementPolicy.LRU seed2) (trace.take n) = some t2 ∧
      ∀ q, q ∈ t.entries → q ∈ t2.entries) ∧
    ∃ t t2, replay gen (TLB.new k ReplacementPolicy.LRU seed) trace = some t ∧
      replay gen (TLB.new k2 ReplacementPolicy.LRU seed2) trace = some t2 ∧
      (missLog gen (TLB.new k2 ReplacementPolicy.LRU seed2) trace).length ≤
        (missLog gen (TLB.new k ReplacementPolicy.LRU seed) trace).length ∧
      (trace.length < 2 ^ 31 → t2.misses ≤ t.misses) := by
  refine ⟨fun n => lru_subset gen k k2 seed seed2 hk hkk (trace.take n), ?_⟩
  obtain ⟨t, t2, ht, ht2, _⟩ := lru_subset gen k k2 seed seed2 hk hkk trace
  have hle := lru_misses_le gen k k2 seed seed2 hk hkk trace
  refine ⟨t, t2, ht, ht2, hle, fun hlen => ?_⟩
  obtain ⟨u, hu, _, _, _, hm, _, _⟩ :=
    replay_counts gen k ReplacementPolicy.LRU seed trace hk hlen
  obtain ⟨u2, hu2, _, _, _, hm2, _, _⟩ :=
    replay_counts gen k2 ReplacementPolicy.LRU seed2 trace (by omega) hlen
  rw [ht] at hu
  rw [ht2] at hu2
  injection hu with hu
  injection hu2 with hu2
  subst hu hu2
  omega

theorem lru_inclusion_witness :
    1 ≤ 2 ∧ 2 ≤ 3 ∧
    ((∀ n, ∃ t t2,
      replay listGen (TLB.new 2 ReplacementPolicy.LRU []) (["A", "B", "C", "A", "B"].take n)
        = some t ∧
      replay listGen (TLB.new 3 ReplacementPolicy.LRU []) (["A", "B", "C", "A", "B"].take n)
        = some t2 ∧
      ∀ q, q ∈ t.entries → q ∈ t2.entries) ∧
    ∃ t t2, replay listGen (TLB.new 2 ReplacementPolicy.LRU []) ["A", "B", "C", "A", "B"]
        = some t ∧
      replay listGen (TLB.new 3 ReplacementPolicy.LRU []) ["A", "B", "C", "A", "B"] = some t2 ∧
      (missLog listGen (TLB.new 3 ReplacementPolicy.LRU []) ["A", "B", "C", "A", "B"]).length ≤
        (missLog listGen (TLB.new 2 ReplacementPolicy.LRU []) ["A", "B", "C", "A", "B"]).length ∧
      (["A", "B", "C", "A", "B"].length < 2 ^ 31 → t2.misses ≤ t.misses)) :=
  ⟨by decide, by decide,
    lru_inclusion listGen 2 3 [] [] ["A", "B", "C", "A", "B"] (by decide) (by decide)⟩

end Inclusion

end TLBSim
